import Mathlib

/-!
Verification of the deferred graphics-command layer (command queue,
vertex backend, uniform prepender) against its natural-language spec.

Embedding conventions:
* float32 scalars are embedded as exact rationals (ℚ); the claims under
  study are structural (list shapes, index bookkeeping, branch logic) and
  do not depend on rounding.
* Go machine integers that can wrap (uint16 indices) are embedded as ℕ
  with explicit `% 65536` at the operations where the source converts or
  adds uint16 values.
* Pointers (`*Image`, `*Shader`) are embedded as identity records: the
  program mints a unique id per object, so reference equality coincides
  with equality of the identity record.
* A Go `panic` is embedded as `Option.none` (for `EnqueueDrawTrianglesCommand`)
  or as a dedicated `panicked` outcome (inside `flush`).
-/

namespace Graphics

/-- IndicesCount mirrors `(1 << 16) / 3 * 3`, the largest multiple of 3 not
exceeding 2^16. -/
def IndicesCount : ℕ := (1 <<< 16) / 3 * 3

/-- VertexFloatCount mirrors the number of floats per vertex (8). -/
def VertexFloatCount : ℕ := 8

/-- PreservedUniformVariablesCount mirrors the count of builtin uniform slots. -/
def PreservedUniformVariablesCount : ℕ := 1 + 1 + 1 + 1 + 1 + 1 + 1 + 1

def TextureDestinationSizeUniformVariableIndex : ℕ := 0
def TextureSourceSizesUniformVariableIndex : ℕ := 1
def TextureDestinationRegionOriginUniformVariableIndex : ℕ := 2
def TextureDestinationRegionSizeUniformVariableIndex : ℕ := 3
def TextureSourceOffsetsUniformVariableIndex : ℕ := 4
def TextureSourceRegionOriginUniformVariableIndex : ℕ := 5
def TextureSourceRegionSizeUniformVariableIndex : ℕ := 6
def ProjectionMatrixUniformVariableIndex : ℕ := 7

theorem IndicesCount_eq : IndicesCount = 65535 := by decide

/-- Truncation toward zero, mirroring Go's `float32(int(x))` conversion. -/
def truncToward0 (x : ℚ) : ℤ := if x < 0 then ⌈x⌉ else ⌊x⌋

/-- adjustDestinationPixel mirrors the source: truncate toward zero, correct
negatives down to the floor, then snap the fractional part at the fixed
thresholds 3/16, 8/16 and 13/16 to the offsets 0, 5/16, 11/16 and 1. -/
def adjustDestinationPixel (x : ℚ) : ℚ :=
  let ix0 : ℚ := (truncToward0 x : ℚ)
  let ix : ℚ := if x < 0 ∧ x ≠ ix0 then ix0 - 1 else ix0
  let frac : ℚ := x - ix
  if frac < 3 / 16 then ix
  else if frac < 8 / 16 then ix + 5 / 16
  else if frac < 13 / 16 then ix + 11 / 16
  else ix + 16 / 16

theorem adjust_ix_eq_floor (x : ℚ) :
    (if x < 0 ∧ x ≠ ((truncToward0 x : ℤ) : ℚ) then ((truncToward0 x : ℤ) : ℚ) - 1
     else ((truncToward0 x : ℤ) : ℚ)) = (⌊x⌋ : ℚ) := by
  unfold truncToward0
  by_cases hx : x < 0
  · by_cases hint : x = ((⌈x⌉ : ℤ) : ℚ)
    · have hfl : ⌊x⌋ = ⌈x⌉ := by
        rw [hint]
        simp
      simp only [if_pos hx]
      rw [if_neg]
      · rw [hfl]
      · rintro ⟨_, hne⟩
        exact hne hint
    · have hxne : x ≠ ((⌊x⌋ : ℤ) : ℚ) := by
        intro h
        apply hint
        rw [h]
        simp
      have hlt : ((⌊x⌋ : ℤ) : ℚ) < x := lt_of_le_of_ne (Int.floor_le x) (Ne.symm hxne)
      have hceil : ⌈x⌉ = ⌊x⌋ + 1 := by
        refine le_antisymm (Int.ceil_le.2 (le_of_lt ?_)) ?_
        · exact_mod_cast Int.lt_floor_add_one x
        · have h2 : ((⌊x⌋ : ℤ) : ℚ) < ((⌈x⌉ : ℤ) : ℚ) := hlt.trans_le (Int.le_ceil x)
          have h1 : (⌊x⌋ : ℤ) < ⌈x⌉ := by exact_mod_cast h2
          omega
      simp only [if_pos hx]
      rw [if_pos ⟨hx, hint⟩, hceil]
      push_cast
      ring
  · have hx' : 0 ≤ x := le_of_not_lt hx
    simp [hx]

/-- adjustDestinationPixel rewritten through the floor and fractional part:
the offset from the floor is selected by the fixed thresholds. -/
theorem adjustDestinationPixel_eq (x : ℚ) :
    adjustDestinationPixel x =
      (⌊x⌋ : ℚ) +
        (if Int.fract x < 3 / 16 then 0
         else if Int.fract x < 8 / 16 then 5 / 16
         else if Int.fract x < 13 / 16 then 11 / 16
         else 1) := by
  simp only [adjustDestinationPixel]
  rw [adjust_ix_eq_floor x]
  have hfract : x - (⌊x⌋ : ℚ) = Int.fract x := by
    rw [Int.fract]
  rw [hfract]
  by_cases h1 : Int.fract x < 3 / 16
  · simp only [if_pos h1]
    ring
  · by_cases h2 : Int.fract x < 8 / 16
    · simp only [if_neg h1, if_pos h2]
    · by_cases h3 : Int.fract x < 13 / 16
      · simp only [if_neg h1, if_neg h2, if_pos h3]
      · simp only [if_neg h1, if_neg h2, if_neg h3]
        norm_num

theorem adjustDestinationPixel_int_add (n : ℤ) (c : ℚ) :
    adjustDestinationPixel ((n : ℚ) + c) = (n : ℚ) + adjustDestinationPixel c := by
  rw [adjustDestinationPixel_eq ((n : ℚ) + c), adjustDestinationPixel_eq c,
    Int.fract_int_add, Int.floor_int_add]
  push_cast
  ring

theorem adjustDestinationPixel_small (c : ℚ) (h0 : 0 ≤ c) (h1 : c < 1) :
    adjustDestinationPixel c =
      (if c < 3 / 16 then 0
       else if c < 8 / 16 then 5 / 16
       else if c < 13 / 16 then 11 / 16
       else 1) := by
  rw [adjustDestinationPixel_eq, Int.fract_eq_self.2 ⟨h0, h1⟩,
    Int.floor_eq_zero_iff.2 ⟨h0, h1⟩]
  norm_num

/-- C9: adjustDestinationPixel is idempotent, and for every input the result
minus the floor of the input is one of exactly 0, 5/16, 11/16, 1, selected by
the fixed thresholds 3/16, 8/16, 13/16 on the fractional part. -/
theorem adjustDestinationPixel_idempotent_and_offsets :
    (∀ x : ℚ, adjustDestinationPixel (adjustDestinationPixel x) = adjustDestinationPixel x) ∧
    (∀ x : ℚ, adjustDestinationPixel x - (⌊x⌋ : ℚ) =
        (if Int.fract x < 3 / 16 then 0
         else if Int.fract x < 8 / 16 then 5 / 16
         else if Int.fract x < 13 / 16 then 11 / 16
         else 1)) ∧
    (∀ x : ℚ, adjustDestinationPixel x - (⌊x⌋ : ℚ) ∈ ({0, 5 / 16, 11 / 16, 1} : Set ℚ)) := by
  have hoff : ∀ x : ℚ, adjustDestinationPixel x - (⌊x⌋ : ℚ) =
      (if Int.fract x < 3 / 16 then 0
       else if Int.fract x < 8 / 16 then 5 / 16
       else if Int.fract x < 13 / 16 then 11 / 16
       else 1) := by
    intro x
    rw [adjustDestinationPixel_eq x]
    ring
  have e0 : adjustDestinationPixel 0 = 0 := by
    rw [adjustDestinationPixel_small 0 le_rfl (by norm_num)]
    norm_num
  have e5 : adjustDestinationPixel (5 / 16) = 5 / 16 := by
    rw [adjustDestinationPixel_small (5 / 16) (by norm_num) (by norm_num)]
    norm_num
  have e11 : adjustDestinationPixel (11 / 16) = 11 / 16 := by
    rw [adjustDestinationPixel_small (11 / 16) (by norm_num) (by norm_num)]
    norm_num
  refine ⟨?_, hoff, ?_⟩
  · intro x
    rw [adjustDestinationPixel_eq x]
    by_cases h1 : Int.fract x < 3 / 16
    · simp only [if_pos h1]
      rw [adjustDestinationPixel_int_add, e0]
    · by_cases h2 : Int.fract x < 8 / 16
      · simp only [if_neg h1, if_pos h2]
        rw [adjustDestinationPixel_int_add, e5]
      · by_cases h3 : Int.fract x < 13 / 16
        · simp only [if_neg h1, if_neg h2, if_pos h3]
          rw [adjustDestinationPixel_int_add, e11]
        · simp only [if_neg h1, if_neg h2, if_neg h3]
          have hone : (⌊x⌋ : ℚ) + 1 = ((⌊x⌋ + 1 : ℤ) : ℚ) + 0 := by
            push_cast
            ring
          rw [hone, adjustDestinationPixel_int_add, e0]
  · intro x
    rw [hoff x]
    by_cases h1 : Int.fract x < 3 / 16
    · simp [h1]
    · by_cases h2 : Int.fract x < 8 / 16
      · simp [h1, h2]
      · by_cases h3 : Int.fract x < 13 / 16
        · simp [h1, h2, h3]
        · simp [h1, h2, h3]

/-- VerticesBackend holds the length of the backing float array, the write
cursor, and the decay counter. The float contents of the backing array play
no role in the claims about it, so only the length is tracked. -/
structure VerticesBackend where
  backendLen : ℕ
  pos : ℕ
  notFullyUsedTime : ℕ
deriving DecidableEq

/-- Doubling loop of verticesBackendFloat32Size. The loop doubles a value
starting at 128 * VertexFloatCount until it reaches `size`; the fuel
parameter (instantiated with `size`) bounds the iteration count, which the
doubling never exhausts (2 ^ size ≥ size), so this equals the source loop. -/
def verticesBackendFloat32SizeGo (size : ℕ) : ℕ → ℕ → ℕ
  | 0, l => l
  | fuel + 1, l => if l < size then verticesBackendFloat32SizeGo size fuel (l * 2) else l

/-- verticesBackendFloat32Size mirrors the source: start at
128 * VertexFloatCount and double until at least `size`. -/
def verticesBackendFloat32Size (size : ℕ) : ℕ :=
  verticesBackendFloat32SizeGo size size (128 * VertexFloatCount)

/-- Result of a slice request: the start index and float count of the
returned range of the backing array, plus the updated backend state. -/
structure SliceResult where
  start : ℕ
  size : ℕ
  backend : VerticesBackend
deriving DecidableEq

/-- slice mirrors `verticesBackend.slice`: grow (and reset the cursor) when
the request does not fit, then hand out the range at the cursor. -/
def VerticesBackend.slice (v : VerticesBackend) (n : ℕ) : SliceResult :=
  let need := n * VertexFloatCount
  if v.backendLen < v.pos + need then
    let newLen := max (v.backendLen * 2) (verticesBackendFloat32Size need)
    { start := 0, size := need,
      backend := { backendLen := newLen, pos := need,
                   notFullyUsedTime := v.notFullyUsedTime } }
  else
    { start := v.pos, size := need, backend := { v with pos := v.pos + need } }

/-- lockAndReset mirrors the source: run the callback; on error return it at
once (the cursor is left as the callback left it); on success update the
decay counter, release the backing array when the counter hits 60, and reset
the cursor to zero. -/
def VerticesBackend.lockAndReset (v : VerticesBackend)
    (f : VerticesBackend → Option ℕ × VerticesBackend) :
    Option ℕ × VerticesBackend :=
  match f v with
  | (some e, v1) => (some e, v1)
  | (none, v1) =>
    let t := if verticesBackendFloat32Size v1.pos < v1.backendLen then
        (if v1.notFullyUsedTime < 60 then v1.notFullyUsedTime + 1 else v1.notFullyUsedTime)
      else 0
    let v2 : VerticesBackend :=
      if t = 60 ∧ 0 < v1.backendLen then
        { backendLen := 0, pos := v1.pos, notFullyUsedTime := 0 }
      else { v1 with notFullyUsedTime := t }
    (none, { v2 with pos := 0 })

theorem slice_size (w : VerticesBackend) (n : ℕ) :
    (w.slice n).size = n * VertexFloatCount := by
  unfold VerticesBackend.slice
  by_cases h : w.backendLen < w.pos + n * VertexFloatCount
  · simp [h]
  · simp [h]

theorem slice_end (w : VerticesBackend) (n : ℕ) :
    (w.slice n).start + (w.slice n).size = (w.slice n).backend.pos := by
  unfold VerticesBackend.slice
  by_cases h : w.backendLen < w.pos + n * VertexFloatCount
  · simp [h]
  · simp [h]

theorem slice_start_of_fits (w : VerticesBackend) (n : ℕ)
    (h : w.pos + n * VertexFloatCount ≤ w.backendLen) :
    (w.slice n).start = w.pos := by
  unfold VerticesBackend.slice
  simp [show ¬ (w.backendLen < w.pos + n * VertexFloatCount) from by omega]

/-- C7: two consecutive slice requests for m and n vertices return ranges of
exactly m*8 and n*8 floats, and when the second request does not regrow the
backing array (same allocation epoch) the two ranges are disjoint: the second
starts at or after the end of the first. -/
theorem slice_sizes_and_disjoint (v : VerticesBackend) (m n : ℕ)
    (hsecond : (v.slice m).backend.pos + n * VertexFloatCount ≤
      (v.slice m).backend.backendLen) :
    (v.slice m).size = m * VertexFloatCount ∧
    ((v.slice m).backend.slice n).size = n * VertexFloatCount ∧
    (v.slice m).start + (v.slice m).size ≤ ((v.slice m).backend.slice n).start := by
  refine ⟨slice_size v m, slice_size _ n, ?_⟩
  rw [slice_end v m, slice_start_of_fits _ n hsecond]

theorem slice_sizes_and_disjoint_witness :
    ((((⟨1024, 0, 0⟩ : VerticesBackend).slice 2).backend.pos + 3 * VertexFloatCount ≤
      (((⟨1024, 0, 0⟩ : VerticesBackend)).slice 2).backend.backendLen) ∧
    ((((⟨1024, 0, 0⟩ : VerticesBackend)).slice 2).size = 2 * VertexFloatCount ∧
     ((((⟨1024, 0, 0⟩ : VerticesBackend)).slice 2).backend.slice 3).size = 3 * VertexFloatCount ∧
     (((⟨1024, 0, 0⟩ : VerticesBackend)).slice 2).start +
        (((⟨1024, 0, 0⟩ : VerticesBackend)).slice 2).size ≤
       ((((⟨1024, 0, 0⟩ : VerticesBackend)).slice 2).backend.slice 3).start)) :=
  ⟨by decide, slice_sizes_and_disjoint ⟨1024, 0, 0⟩ 2 3 (by decide)⟩

/-- Backend state used in the C8 counterexample. -/
def c8failState : VerticesBackend := ⟨1024, 5, 0⟩

/-- Callback used in the C8 counterexample: it reports an error. -/
def c8failF : VerticesBackend → Option ℕ × VerticesBackend := fun s => (some 3, s)

/-- C8 counterexample: when the callback returns an error, lockAndReset
returns before resetting the cursor, so the cursor stays nonzero — the claim
that the cursor is reset on every return, including the error case, fails. -/
theorem lockAndReset_error_keeps_cursor :
    (c8failState.lockAndReset c8failF).1 = some 3 ∧
    (c8failState.lockAndReset c8failF).2.pos = 5 := by
  constructor
  · rfl
  · rfl

/-- C8 (amended): when the callback succeeds the cursor is reset to zero, and
when a successful under-utilized window takes the decay counter from 59 to
the threshold 60 while the backing array is nonempty, the backing array is
released entirely and the counter is reset. -/
theorem lockAndReset_resets_and_releases (v : VerticesBackend)
    (f : VerticesBackend → Option ℕ × VerticesBackend) :
    ((f v).1 = none → (v.lockAndReset f).2.pos = 0) ∧
    (∀ v1, f v = (none, v1) →
      v1.notFullyUsedTime = 59 →
      verticesBackendFloat32Size v1.pos < v1.backendLen →
      0 < v1.backendLen →
      (v.lockAndReset f).2.backendLen = 0 ∧
      (v.lockAndReset f).2.notFullyUsedTime = 0) := by
  constructor
  · intro h
    unfold VerticesBackend.lockAndReset
    split
    · rename_i e v1 heq2
      rw [heq2] at h
      simp at h
    · rfl
  · intro v1' heq h59 hund hlen
    unfold VerticesBackend.lockAndReset
    split
    · rename_i e v1 heq2
      rw [heq] at heq2
      simp at heq2
    · rename_i v1 heq2
      rw [heq] at heq2
      have hv : v1 = v1' := by
        have := congrArg Prod.snd heq2
        exact this.symm
      subst hv
      have ht : (if verticesBackendFloat32Size v1.pos < v1.backendLen then
          (if v1.notFullyUsedTime < 60 then v1.notFullyUsedTime + 1
           else v1.notFullyUsedTime)
        else 0) = 60 := by
        rw [if_pos hund, if_pos (by omega)]
        omega
      simp [ht, hlen]

/-- Successful-callback result state used in the C8 witness: under-utilized
(the snapped size 1024 of cursor 100 is below the backing length 2048) with
the decay counter at 59. -/
def c8wV1 : VerticesBackend := ⟨2048, 100, 59⟩

/-- Successful callback used in the C8 witness. -/
def c8wF : VerticesBackend → Option ℕ × VerticesBackend :=
  fun _ => (none, c8wV1)

def c8w : VerticesBackend := ⟨0, 0, 0⟩

theorem lockAndReset_resets_and_releases_witness :
    (c8w.lockAndReset c8wF).2.pos = 0 ∧
    (c8w.lockAndReset c8wF).2.backendLen = 0 ∧
    (c8w.lockAndReset c8wF).2.notFullyUsedTime = 0 :=
  ⟨(lockAndReset_resets_and_releases c8w c8wF).1 rfl,
   ((lockAndReset_resets_and_releases c8w c8wF).2 c8wV1 rfl rfl (by decide)
     (by decide)).1,
   ((lockAndReset_resets_and_releases c8w c8wF).2 c8wV1 rfl rfl (by decide)
     (by decide)).2⟩

end Graphics

namespace GraphicsCommand

open Graphics

/-- Image embeds a `*Image` handle: its identity plus the internal size the
uniform prepender reads. Reference equality of the pointers is embedded as
equality of these records (ids are minted uniquely by the program). -/
structure Image where
  id : ℕ
  width : ℕ
  height : ℕ
  screen : Bool
deriving DecidableEq

/-- Shader embeds a `*Shader` handle by its identity. -/
structure Shader where
  id : ℕ
deriving DecidableEq

/-- Blend embeds the blend-mode descriptor struct; its six factor and
operation fields are compared field-wise, as Go struct equality does. -/
structure Blend where
  blendFactorSourceRGB : ℕ
  blendFactorSourceAlpha : ℕ
  blendFactorDestinationRGB : ℕ
  blendFactorDestinationAlpha : ℕ
  blendOperationRGB : ℕ
  blendOperationAlpha : ℕ
deriving DecidableEq

/-- Region embeds `graphicsdriver.Region`. -/
structure Region where
  x : ℚ
  y : ℚ
  width : ℚ
  height : ℚ
deriving DecidableEq

/-- Srcs embeds the fixed-size array of 4 nullable source image references. -/
structure Srcs where
  s0 : Option Image
  s1 : Option Image
  s2 : Option Image
  s3 : Option Image
deriving DecidableEq

def Srcs.toList (s : Srcs) : List (Option Image) := [s.s0, s.s1, s.s2, s.s3]

/-- DrawTrianglesCommand embeds the draw-triangles command payload. The
vertex-range reference is embedded as the list of referenced floats. -/
structure DrawTrianglesCommand where
  dst : Image
  srcs : Srcs
  vertices : List ℚ
  nindices : ℕ
  blend : Blend
  dstRegion : Region
  shader : Shader
  uniforms : List (List ℚ)
  evenOdd : Bool
deriving DecidableEq

/-- The x/y pairs scanned by dstRegionFromVertices: one per
VertexFloatCount-sized vertex record. -/
def vertexPoints (vs : List ℚ) : List (ℚ × ℚ) :=
  (List.range (vs.length / VertexFloatCount)).map fun i =>
    (vs.getD (VertexFloatCount * i) 0, vs.getD (VertexFloatCount * i + 1) 0)

structure Box where
  minX : ℚ
  minY : ℚ
  maxX : ℚ
  maxY : ℚ
deriving DecidableEq

/-- dstRegionFromVertices mirrors the source scan. The source starts the
running min/max at plus/minus infinity; with at least one vertex the first
iteration replaces all four fields, so the scan is embedded as a fold from
the first point. With no vertices the infinite starting values survive and
make every strict comparison in mightOverlapDstRegions false; that case is
embedded as `none`. -/
def dstRegionFromVertices (vs : List ℚ) : Option Box :=
  match vertexPoints vs with
  | [] => none
  | p :: ps => some (ps.foldl
      (fun b q => ⟨min b.minX q.1, min b.minY q.2, max b.maxX q.1, max b.maxY q.2⟩)
      ⟨p.1, p.2, p.1, p.2⟩)

/-- mightOverlapDstRegions mirrors the source, margin 1. -/
def mightOverlapDstRegions (v1 v2 : List ℚ) : Bool :=
  match dstRegionFromVertices v1, dstRegionFromVertices v2 with
  | some b1, some b2 =>
    decide (b1.minX < b2.maxX + 1) && decide (b2.minX < b1.maxX + 1) &&
    decide (b1.minY < b2.maxY + 1) && decide (b2.minY < b1.maxY + 1)
  | _, _ => false

/-- Scalar-by-scalar comparison loop of two uniform entries, as in the
source: equal lengths and equal values at every position. -/
def floatSliceEq (a b : List ℚ) : Bool :=
  a.length == b.length && ((a.zip b).all fun p => p.1 == p.2)

/-- The uniform-list comparison loops of CanMergeWithDrawTrianglesCommand:
equal outer lengths, and for each entry equal lengths and scalar values. -/
def uniformListsEq (a b : List (List ℚ)) : Bool :=
  a.length == b.length && ((a.zip b).all fun p => floatSliceEq p.1 p.2)

/-- CanMergeWithDrawTrianglesCommand mirrors the source's early-return
chain. -/
def CanMergeWithDrawTrianglesCommand (c : DrawTrianglesCommand) (dst : Image)
    (srcs : Srcs) (vertices : List ℚ) (blend : Blend) (dstRegion : Region)
    (shader : Shader) (uniforms : List (List ℚ)) (evenOdd : Bool) : Bool :=
  if c.shader ≠ shader then false
  else if ¬ uniformListsEq c.uniforms uniforms then false
  else if c.dst ≠ dst then false
  else if c.srcs ≠ srcs then false
  else if c.blend ≠ blend then false
  else if c.dstRegion ≠ dstRegion then false
  else if c.evenOdd || evenOdd then
    (if c.evenOdd && evenOdd then ! mightOverlapDstRegions c.vertices vertices
     else false)
  else true

theorem floatSliceEq_iff (a b : List ℚ) : floatSliceEq a b = true ↔ a = b := by
  induction a generalizing b with
  | nil =>
    cases b with
    | nil => simp [floatSliceEq]
    | cons y ys => simp [floatSliceEq]
  | cons x xs ih =>
    cases b with
    | nil => simp [floatSliceEq]
    | cons y ys =>
      simp only [floatSliceEq, List.length_cons, List.zip_cons_cons, List.all_cons,
        Bool.and_eq_true, beq_iff_eq, List.cons.injEq, Nat.add_right_cancel_iff] at ih ⊢
      constructor
      · rintro ⟨hlen, hxy, hall⟩
        exact ⟨hxy, (ih ys).1 ⟨hlen, hall⟩⟩
      · rintro ⟨hxy, rfl⟩
        exact ⟨rfl, hxy, ((ih xs).2 rfl).2⟩

theorem uniformListsEq_iff (a b : List (List ℚ)) : uniformListsEq a b = true ↔ a = b := by
  induction a generalizing b with
  | nil =>
    cases b with
    | nil => simp [uniformListsEq]
    | cons y ys => simp [uniformListsEq]
  | cons x xs ih =>
    cases b with
    | nil => simp [uniformListsEq]
    | cons y ys =>
      simp only [uniformListsEq, List.length_cons, List.zip_cons_cons, List.all_cons,
        Bool.and_eq_true, beq_iff_eq, List.cons.injEq, Nat.add_right_cancel_iff,
        floatSliceEq_iff] at ih ⊢
      constructor
      · rintro ⟨hlen, hxy, hall⟩
        exact ⟨hxy, (ih ys).1 ⟨hlen, hall⟩⟩
      · rintro ⟨hxy, rfl⟩
        exact ⟨rfl, hxy, ((ih xs).2 rfl).2⟩

/-- Spec-side x coordinates: every vertex's x, scanned in order. -/
def specXCoords (vs : List ℚ) : List ℚ :=
  (List.range (vs.length / VertexFloatCount)).map fun i =>
    vs.getD (VertexFloatCount * i) 0

/-- Spec-side y coordinates: every vertex's y, scanned in order. -/
def specYCoords (vs : List ℚ) : List ℚ :=
  (List.range (vs.length / VertexFloatCount)).map fun i =>
    vs.getD (VertexFloatCount * i + 1) 0

/-- Spec-side overlap relation of the two vertex-derived axis-aligned
bounding boxes, within a margin of 1 unit, worded from the spec: take the
min/max over every vertex's x and y, then test overlap with the margin. -/
def specAABBsOverlapWithin1 (v1 v2 : List ℚ) : Prop :=
  ∃ a1 b1 c1 d1 a2 b2 c2 d2 : ℚ,
    (specXCoords v1).min? = some a1 ∧ (specYCoords v1).min? = some b1 ∧
    (specXCoords v1).max? = some c1 ∧ (specYCoords v1).max? = some d1 ∧
    (specXCoords v2).min? = some a2 ∧ (specYCoords v2).min? = some b2 ∧
    (specXCoords v2).max? = some c2 ∧ (specYCoords v2).max? = some d2 ∧
    a1 < c2 + 1 ∧ a2 < c1 + 1 ∧ b1 < d2 + 1 ∧ b2 < d1 + 1

theorem specXCoords_eq_map (vs : List ℚ) :
    specXCoords vs = (vertexPoints vs).map Prod.fst := by
  simp only [specXCoords, vertexPoints, List.map_map]
  rfl

theorem specYCoords_eq_map (vs : List ℚ) :
    specYCoords vs = (vertexPoints vs).map Prod.snd := by
  simp only [specYCoords, vertexPoints, List.map_map]
  rfl

theorem boxFold_components (ps : List (ℚ × ℚ)) (b : Box) :
    ps.foldl (fun b q => (⟨min b.minX q.1, min b.minY q.2, max b.maxX q.1,
        max b.maxY q.2⟩ : Box)) b =
      ⟨(ps.map Prod.fst).foldl min b.minX, (ps.map Prod.snd).foldl min b.minY,
       (ps.map Prod.fst).foldl max b.maxX, (ps.map Prod.snd).foldl max b.maxY⟩ := by
  induction ps generalizing b with
  | nil => rfl
  | cons p ps ih => simp [List.foldl_cons, ih]

theorem dstRegionFromVertices_minmax (vs : List ℚ) (b : Box)
    (h : dstRegionFromVertices vs = some b) :
    (specXCoords vs).min? = some b.minX ∧ (specYCoords vs).min? = some b.minY ∧
    (specXCoords vs).max? = some b.maxX ∧ (specYCoords vs).max? = some b.maxY := by
  rw [specXCoords_eq_map, specYCoords_eq_map]
  unfold dstRegionFromVertices at h
  rcases hp : vertexPoints vs with _ | ⟨p, ps⟩
  · rw [hp] at h
    simp at h
  · rw [hp] at h
    simp only [Option.some.injEq] at h
    rw [boxFold_components] at h
    subst h
    refine ⟨rfl, rfl, rfl, rfl⟩

theorem dstRegionFromVertices_none (vs : List ℚ)
    (h : dstRegionFromVertices vs = none) : specXCoords vs = [] := by
  rw [specXCoords_eq_map]
  unfold dstRegionFromVertices at h
  rcases hp : vertexPoints vs with _ | ⟨p, ps⟩
  · simp
  · rw [hp] at h
    simp at h

theorem mightOverlapDstRegions_iff (v1 v2 : List ℚ) :
    mightOverlapDstRegions v1 v2 = true ↔ specAABBsOverlapWithin1 v1 v2 := by
  unfold mightOverlapDstRegions
  rcases h1 : dstRegionFromVertices v1 with _ | b1
  · refine iff_of_false (by simp) ?_
    rintro ⟨a1, b1', c1, d1, a2, b2', c2, d2, hx1, _⟩
    rw [dstRegionFromVertices_none v1 h1] at hx1
    simp at hx1
  · rcases h2 : dstRegionFromVertices v2 with _ | b2
    · refine iff_of_false (by simp) ?_
      rintro ⟨a1, b1', c1, d1, a2, b2', c2, d2, _, _, _, _, hx2, _⟩
      rw [dstRegionFromVertices_none v2 h2] at hx2
      simp at hx2
    · obtain ⟨hxm1, hym1, hxM1, hyM1⟩ := dstRegionFromVertices_minmax v1 b1 h1
      obtain ⟨hxm2, hym2, hxM2, hyM2⟩ := dstRegionFromVertices_minmax v2 b2 h2
      simp only [Bool.and_eq_true, decide_eq_true_eq]
      constructor
      · rintro ⟨⟨⟨p1, p2⟩, p3⟩, p4⟩
        exact ⟨b1.minX, b1.minY, b1.maxX, b1.maxY, b2.minX, b2.minY, b2.maxX,
          b2.maxY, hxm1, hym1, hxM1, hyM1, hxm2, hym2, hxM2, hyM2, p1, p2, p3, p4⟩
      · rintro ⟨a1, b1', c1, d1, a2, b2', c2, d2, q1, q2, q3, q4, q5, q6, q7, q8,
          p1, p2, p3, p4⟩
        rw [q1] at hxm1
        rw [q2] at hym1
        rw [q3] at hxM1
        rw [q4] at hyM1
        rw [q5] at hxm2
        rw [q6] at hym2
        rw [q7] at hxM2
        rw [q8] at hyM2
        cases Option.some.inj hxm1
        cases Option.some.inj hym1
        cases Option.some.inj hxM1
        cases Option.some.inj hyM1
        cases Option.some.inj hxm2
        cases Option.some.inj hym2
        cases Option.some.inj hxM2
        cases Option.some.inj hyM2
        exact ⟨⟨⟨p1, p2⟩, p3⟩, p4⟩

theorem mightOverlapDstRegions_false_iff (v1 v2 : List ℚ) :
    mightOverlapDstRegions v1 v2 = false ↔ ¬ specAABBsOverlapWithin1 v1 v2 := by
  rw [← mightOverlapDstRegions_iff]
  cases mightOverlapDstRegions v1 v2 <;> simp

/-- C1: CanMergeWithDrawTrianglesCommand returns true exactly when the two
commands agree on the shader reference, the full uniform lists (shape and
every scalar), the destination image, the four ordered source references,
the blend descriptor and the destination region, and the even-odd flags are
either both clear, or both set with vertex-derived bounding boxes that do
not overlap within a margin of 1 unit; one flag set alone rejects. -/
theorem canMergeWithDrawTrianglesCommand_iff (c : DrawTrianglesCommand)
    (dst : Image) (srcs : Srcs) (vertices : List ℚ) (blend : Blend)
    (dstRegion : Region) (shader : Shader) (uniforms : List (List ℚ))
    (evenOdd : Bool) :
    CanMergeWithDrawTrianglesCommand c dst srcs vertices blend dstRegion shader
        uniforms evenOdd = true ↔
      (c.shader = shader ∧ c.uniforms = uniforms ∧ c.dst = dst ∧ c.srcs = srcs ∧
       c.blend = blend ∧ c.dstRegion = dstRegion ∧
       ((c.evenOdd = false ∧ evenOdd = false) ∨
        (c.evenOdd = true ∧ evenOdd = true ∧
          ¬ specAABBsOverlapWithin1 c.vertices vertices))) := by
  unfold CanMergeWithDrawTrianglesCommand
  split_ifs with h1 h2 h3 h4 h5 h6 h7 h8 <;>
    simp only [uniformListsEq_iff] at * <;>
    cases hc : c.evenOdd <;> cases he : evenOdd <;>
    simp_all [mightOverlapDstRegions_iff, mightOverlapDstRegions_false_iff]

/-- Doubling loop of roundUpPower2. The loop doubles a value starting at 1
until it reaches `x`; the fuel parameter (instantiated with `x`) bounds the
iteration count, which the doubling never exhausts (2 ^ x ≥ x), so this
equals the source loop. -/
def roundUpPower2Go (x : ℕ) : ℕ → ℕ → ℕ
  | 0, p2 => p2
  | fuel + 1, p2 => if p2 < x then roundUpPower2Go x fuel (p2 * 2) else p2

/-- roundUpPower2 mirrors the source: double from 1 until at least x. -/
def roundUpPower2 (x : ℕ) : ℕ := roundUpPower2Go x x 1

/-- Arena embeds the queue's `float32sBuffer` slice: the backing array
contents (`data`, whose length is the capacity) and the current length. -/
structure Arena where
  data : List ℚ
  len : ℕ
deriving DecidableEq

structure AllocResult where
  start : ℕ
  stale : List ℚ
  arena : Arena
deriving DecidableEq

/-- allocFloat32s mirrors the source: when the request does not fit the
remaining capacity, a fresh zeroed backing array of the next power-of-two
capacity (at least 16) replaces the old one and the length restarts at the
request; otherwise the length advances. `stale` is the current contents of
the handed-out range (zero on a fresh array, previous contents otherwise) —
the Go slice is returned unwritten. -/
def allocFloat32s (a : Arena) (n : ℕ) : AllocResult :=
  if a.data.length < a.len + n then
    let c := max (roundUpPower2 (a.len + n)) 16
    let data := List.replicate c (0 : ℚ)
    ⟨0, data.take n, ⟨data, n⟩⟩
  else
    ⟨a.len, (a.data.drop a.len).take n, ⟨a.data, a.len + n⟩⟩

/-- Overwrite the range of `l` starting at `start` with `vals`. -/
def listWrite (l : List ℚ) (start : ℕ) (vals : List ℚ) : List ℚ :=
  l.take start ++ vals ++ l.drop (start + vals.length)

def Arena.write (a : Arena) (start : ℕ) (vals : List ℚ) : Arena :=
  ⟨listWrite a.data start vals, a.len⟩

/-- Allocate a slot of the arena and write it in full, as the source does
for every builtin uniform slot except the source-sizes slot. -/
def allocWrite (a : Arena) (vals : List ℚ) : Arena :=
  let r := allocFloat32s a vals.length
  r.arena.write r.start vals

/-- One source slot of the source-sizes uniform: a non-nil source gets its
internal size written; a nil source is skipped by the loop, leaving the
stale arena contents in its two floats. -/
def sizeSlot (stale : List ℚ) (i : ℕ) (s : Option Image) : List ℚ :=
  match s with
  | some img => [(img.width : ℚ), (img.height : ℚ)]
  | none => [stale.getD (2 * i) 0, stale.getD (2 * i + 1) 0]

/-- The source-sizes uniform entry built by the `for i, src := range srcs`
loop over the four slots. -/
def usizesVals (stale : List ℚ) (srcs : Srcs) : List ℚ :=
  sizeSlot stale 0 srcs.s0 ++ sizeSlot stale 1 srcs.s1 ++
    sizeSlot stale 2 srcs.s2 ++ sizeSlot stale 3 srcs.s3

/-- prependPreservedUniforms mirrors the source. The source appends 8 slots
before the user uniforms via append+copy; the net effect (all 8 slots are
then written) is the builtin entries at indices 0-7 followed by the caller's
uniforms. Scratch slices come from the arena and are written in full, except
the source-sizes slot whose nil-source floats keep the stale contents. -/
def prependPreservedUniforms (a : Arena) (uniforms : List (List ℚ)) (dst : Image)
    (srcs : Srcs) (offsets : List (ℚ × ℚ)) (dstRegion srcRegion : Region) :
    List (List ℚ) × Arena :=
  let dw : ℚ := dst.width
  let dh : ℚ := dst.height
  let udstsize : List ℚ := [dw, dh]
  let a1 := allocWrite a udstsize
  let r2 := allocFloat32s a1 (2 * 4)
  let usizes := usizesVals r2.stale srcs
  let a2 := r2.arena.write r2.start usizes
  let udstrorig : List ℚ := [dstRegion.x / dw, dstRegion.y / dh]
  let a3 := allocWrite a2 udstrorig
  let udstrsize : List ℚ := [dstRegion.width / dw, dstRegion.height / dh]
  let a4 := allocWrite a3 udstrsize
  let srcRegion2 : Region :=
    match srcs.s0 with
    | some img => ⟨srcRegion.x / (img.width : ℚ), srcRegion.y / (img.height : ℚ),
        srcRegion.width / (img.width : ℚ), srcRegion.height / (img.height : ℚ)⟩
    | none => srcRegion
  let offsets2 : List (ℚ × ℚ) :=
    match srcs.s0 with
    | some img => offsets.map fun o => (o.1 / (img.width : ℚ), o.2 / (img.height : ℚ))
    | none => offsets
  let uoffsets := (offsets2.map fun o => [o.1, o.2]).flatten
  let a5 := allocWrite a4 uoffsets
  let usrcrorig : List ℚ := [srcRegion2.x, srcRegion2.y]
  let a6 := allocWrite a5 usrcrorig
  let usrcrsize : List ℚ := [srcRegion2.width, srcRegion2.height]
  let a7 := allocWrite a6 usrcrsize
  let umatrix : List ℚ :=
    [2 / dw, 0, 0, 0, 0, 2 / dh, 0, 0, 0, 0, 1, 0, -1, -1, 0, 1]
  let a8 := allocWrite a7 umatrix
  ([udstsize, usizes, udstrorig, udstrsize, uoffsets, usrcrorig, usrcrsize,
      umatrix] ++ uniforms, a8)

/-- The portion of the arena past the current length is all zeros: true of a
fresh arena and preserved by fully written allocations. -/
def Arena.ZeroTail (a : Arena) : Prop := ∀ x ∈ a.data.drop a.len, x = 0

theorem getD_zero_of_all (l : List ℚ) (h : ∀ x ∈ l, x = 0) (j : ℕ) :
    l.getD j 0 = 0 := by
  rcases hj : l[j]? with _ | x
  · simp [List.getD, hj]
  · have hx : x ∈ l := by
      obtain ⟨hlt, he⟩ := List.getElem?_eq_some_iff.1 hj
      exact he ▸ List.getElem_mem hlt
    simp [List.getD, hj, h x hx]

theorem stale_zero (a : Arena) (n : ℕ) (hz : a.ZeroTail) :
    ∀ x ∈ (allocFloat32s a n).stale, x = 0 := by
  intro x hx
  unfold allocFloat32s at hx
  by_cases hcap : a.data.length < a.len + n
  · simp only [if_pos hcap] at hx
    have := List.mem_of_mem_take hx
    exact List.eq_of_mem_replicate this
  · simp only [if_neg hcap] at hx
    exact hz x (List.mem_of_mem_take hx)

theorem zeroTail_of_fresh (c n : ℕ) (vals : List ℚ) (hlen : vals.length = n) :
    ∀ x ∈ (listWrite (List.replicate c 0) 0 vals).drop n, x = 0 := by
  intro x hx
  unfold listWrite at hx
  simp only [List.take_zero, List.nil_append, Nat.zero_add] at hx
  rw [← hlen, List.drop_left] at hx
  exact List.eq_of_mem_replicate (List.mem_of_mem_drop hx)

theorem zeroTail_of_reuse (data : List ℚ) (len n : ℕ) (vals : List ℚ)
    (hlen : vals.length = n) (hfit : len + n ≤ data.length)
    (hz : ∀ x ∈ data.drop len, x = 0) :
    ∀ x ∈ (listWrite data len vals).drop (len + n), x = 0 := by
  intro x hx
  unfold listWrite at hx
  have htl : (data.take len ++ vals).length = len + n := by
    rw [List.length_append, List.length_take]
    omega
  rw [show len + n = (data.take len ++ vals).length from htl.symm] at hx
  rw [List.drop_left] at hx
  have hdd : data.drop (len + vals.length) = (data.drop len).drop vals.length := by
    rw [List.drop_drop, Nat.add_comm]
  rw [hdd] at hx
  exact hz x (List.mem_of_mem_drop hx)

theorem write_alloc_zeroTail (a : Arena) (n : ℕ) (vals : List ℚ)
    (hlen : vals.length = n) (hz : a.ZeroTail) :
    (((allocFloat32s a n).arena).write (allocFloat32s a n).start vals).ZeroTail := by
  by_cases hcap : a.data.length < a.len + n
  · have halloc : allocFloat32s a n =
        ⟨0, (List.replicate (max (roundUpPower2 (a.len + n)) 16) 0).take n,
          ⟨List.replicate (max (roundUpPower2 (a.len + n)) 16) 0, n⟩⟩ := by
      unfold allocFloat32s
      rw [if_pos hcap]
    rw [halloc]
    intro x hx
    exact zeroTail_of_fresh (max (roundUpPower2 (a.len + n)) 16) n vals hlen x hx
  · have halloc : allocFloat32s a n =
        ⟨a.len, (a.data.drop a.len).take n, ⟨a.data, a.len + n⟩⟩ := by
      unfold allocFloat32s
      rw [if_neg hcap]
    rw [halloc]
    intro x hx
    exact zeroTail_of_reuse a.data a.len n vals hlen (by omega) hz x hx

theorem usizesVals_length (st : List ℚ) (srcs : Srcs) :
    (usizesVals st srcs).length = 2 * 4 := by
  rcases srcs with ⟨s0, s1, s2, s3⟩
  unfold usizesVals
  cases s0 <;> cases s1 <;> cases s2 <;> cases s3 <;> simp [sizeSlot]

theorem usizesVals_zero_of_none (st : List ℚ) (hst : ∀ j, st.getD j 0 = 0)
    (srcs : Srcs) :
    ∀ i, i < 4 → srcs.toList.getD i none = none →
      (usizesVals st srcs).getD (2 * i) 0 = 0 ∧
      (usizesVals st srcs).getD (2 * i + 1) 0 = 0 := by
  intro i hi hnone
  rcases srcs with ⟨s0, s1, s2, s3⟩
  simp only [Srcs.toList, List.getD_cons_zero, List.getD_cons_succ] at hnone
  have hst2 : ∀ j, (st[j]?).getD (0 : ℚ) = 0 := fun j => by
    rw [← List.getD_eq_getElem?_getD]
    exact hst j
  interval_cases i
  · subst hnone
    cases s1 <;> cases s2 <;> cases s3 <;> simp [usizesVals, sizeSlot, hst, hst2]
  · subst hnone
    cases s0 <;> cases s2 <;> cases s3 <;> simp [usizesVals, sizeSlot, hst, hst2]
  · subst hnone
    cases s0 <;> cases s1 <;> cases s3 <;> simp [usizesVals, sizeSlot, hst, hst2]
  · subst hnone
    cases s0 <;> cases s1 <;> cases s2 <;> simp [usizesVals, sizeSlot, hst, hst2]

/-- C6 (amended): the uniform list built before shader filtering is exactly
the 8 builtin entries at indices 0-7 followed by the caller-supplied
uniforms in order, and the source-sizes entry at index 1 holds two floats
per source slot. The floats of absent (nil) sources are zero when the arena
storage backing the slot is zeroed (as it is on first use: fresh arena
chunks are zero-initialized); in general they retain the arena's previous
contents, since the loop writes nothing for a nil source. -/
theorem prependPreservedUniforms_structure (a : Arena) (uniforms : List (List ℚ))
    (dst : Image) (srcs : Srcs) (offsets : List (ℚ × ℚ)) (dstR srcR : Region)
    (hzero : a.ZeroTail) :
    (prependPreservedUniforms a uniforms dst srcs offsets dstR srcR).1.length =
      PreservedUniformVariablesCount + uniforms.length ∧
    (prependPreservedUniforms a uniforms dst srcs offsets dstR
      srcR).1.drop PreservedUniformVariablesCount = uniforms ∧
    ((prependPreservedUniforms a uniforms dst srcs offsets dstR srcR).1.getD
      TextureSourceSizesUniformVariableIndex []).length = 2 * 4 ∧
    (∀ i, i < 4 → srcs.toList.getD i none = none →
      ((prependPreservedUniforms a uniforms dst srcs offsets dstR srcR).1.getD
        TextureSourceSizesUniformVariableIndex []).getD (2 * i) 0 = 0 ∧
      ((prependPreservedUniforms a uniforms dst srcs offsets dstR srcR).1.getD
        TextureSourceSizesUniformVariableIndex []).getD (2 * i + 1) 0 = 0) := by
  have hz1 : (allocWrite a [(dst.width : ℚ), (dst.height : ℚ)]).ZeroTail :=
    write_alloc_zeroTail a _ _ rfl hzero
  have hstD : ∀ j, ((allocFloat32s
      (allocWrite a [(dst.width : ℚ), (dst.height : ℚ)]) (2 * 4)).stale).getD j 0 = 0 :=
    getD_zero_of_all _ (stale_zero _ _ hz1)
  refine ⟨?_, rfl, ?_, ?_⟩
  · show (_ ++ uniforms : List (List ℚ)).length = _
    rw [List.length_append]
    rfl
  · exact usizesVals_length _ srcs
  · exact usizesVals_zero_of_none _ hstD srcs

/-- Command embeds the closed command variant set: the draw-triangles
variant carries its payload; every other variant (write-pixels, read-pixels,
dispose, new-image, new-shader, is-invalidated) is embedded as `other` with
an identity and the recoverable error its execution reports. -/
inductive Command where
  | draw (c : DrawTrianglesCommand)
  | other (id : ℕ) (err : Option ℕ)
deriving DecidableEq

/-- Queue embeds commandQueue: the command list, the shared vertex and index
arrays, the running per-chunk counters, the free-list (only its size
matters: pooled payloads are fully overwritten on reuse), and the per-flush
float arena. -/
structure Queue where
  commands : List Command
  vertices : List ℚ
  indices : List ℕ
  tmpNumVertexFloats : ℕ
  tmpNumIndices : ℕ
  pool : ℕ
  float32sBuffer : Arena
deriving DecidableEq

def emptyQueue : Queue :=
  { commands := [], vertices := [], indices := [], tmpNumVertexFloats := 0,
    tmpNumIndices := 0, pool := 0, float32sBuffer := ⟨[], 0⟩ }

/-- mustUseDifferentVertexBuffer mirrors the source. -/
def mustUseDifferentVertexBuffer (nextNumVertexFloats nextNumIndices : ℕ) : Bool :=
  decide (IndicesCount * VertexFloatCount < nextNumVertexFloats) ||
    decide (IndicesCount < nextNumIndices)

/-- Arguments of one EnqueueDrawTrianglesCommand call. -/
structure DrawArgs where
  dst : Image
  srcs : Srcs
  offsets : List (ℚ × ℚ)
  vertices : List ℚ
  indices : List ℕ
  blend : Blend
  dstRegion : Region
  srcRegion : Region
  shader : Shader
  uniforms : List (List ℚ)
  evenOdd : Bool
deriving DecidableEq

/-- The split decision of EnqueueDrawTrianglesCommand: would appending this
command's vertex floats and indices to the running chunk totals exceed
capacity. -/
def enqueueSplit (q : Queue) (a : DrawArgs) : Bool :=
  mustUseDifferentVertexBuffer (q.tmpNumVertexFloats + a.vertices.length)
    (q.tmpNumIndices + a.indices.length)

/-- Running vertex-float total after the possible chunk reset. -/
def enqueueTmpV0 (q : Queue) (a : DrawArgs) : ℕ :=
  if enqueueSplit q a then 0 else q.tmpNumVertexFloats

/-- Running index total after the possible chunk reset. -/
def enqueueTmpI0 (q : Queue) (a : DrawArgs) : ℕ :=
  if enqueueSplit q a then 0 else q.tmpNumIndices

/-- The queue's vertex array after appending this call's vertex data. -/
def enqueueVertices (q : Queue) (a : DrawArgs) : List ℚ :=
  q.vertices ++ a.vertices

/-- The queue's index array after appendIndices: each appended index is
rebased by the chunk-relative vertex offset. The uint16 conversion of the
offset and the uint16 addition both wrap modulo 2^16, embedded as a single
`% 65536` on the sum. -/
def enqueueIndices (q : Queue) (a : DrawArgs) : List ℕ :=
  q.indices ++
    a.indices.map fun ix => (ix + enqueueTmpV0 q a / VertexFloatCount) % 65536

/-- The full uniform list of the call: builtin slots prepended, then the
shader-reflection filter (`filt`, the out-of-scope FilterUniformVariables
collaborator) drops unused entries. -/
def enqueueUniforms (filt : Shader → List (List ℚ) → List (List ℚ))
    (q : Queue) (a : DrawArgs) : List (List ℚ) :=
  filt a.shader (prependPreservedUniforms q.float32sBuffer a.uniforms a.dst
    a.srcs a.offsets a.dstRegion a.srcRegion).1

/-- The queue after the non-merge path: a payload is taken from the pool
(only the count matters; every field is overwritten) and the new command
references the just-appended suffix of the vertex array. -/
def enqueueNewQueue (filt : Shader → List (List ℚ) → List (List ℚ))
    (q : Queue) (a : DrawArgs) : Queue :=
  { commands := q.commands ++ [Command.draw
      { dst := a.dst, srcs := a.srcs,
        vertices := (enqueueVertices q a).drop
          ((enqueueVertices q a).length - a.vertices.length),
        nindices := a.indices.length, blend := a.blend,
        dstRegion := a.dstRegion, shader := a.shader,
        uniforms := enqueueUniforms filt q a, evenOdd := a.evenOdd }],
    vertices := enqueueVertices q a, indices := enqueueIndices q a,
    tmpNumVertexFloats := enqueueTmpV0 q a + a.vertices.length,
    tmpNumIndices := enqueueTmpI0 q a + a.indices.length,
    pool := q.pool - 1,
    float32sBuffer := (prependPreservedUniforms q.float32sBuffer a.uniforms
      a.dst a.srcs a.offsets a.dstRegion a.srcRegion).2 }

/-- The queue after the merge path: the previous command's vertex range is
extended in place and its index count grows; no command is appended. -/
def enqueueMergedQueue (filt : Shader → List (List ℚ) → List (List ℚ))
    (q : Queue) (a : DrawArgs) (last : DrawTrianglesCommand) : Queue :=
  { commands := q.commands.dropLast ++ [Command.draw
      { last with
          vertices := (enqueueVertices q a).drop
            ((enqueueVertices q a).length -
              (a.vertices.length + last.vertices.length)),
          nindices := last.nindices + a.indices.length }],
    vertices := enqueueVertices q a, indices := enqueueIndices q a,
    tmpNumVertexFloats := enqueueTmpV0 q a + a.vertices.length,
    tmpNumIndices := enqueueTmpI0 q a + a.indices.length,
    pool := q.pool,
    float32sBuffer := (prependPreservedUniforms q.float32sBuffer a.uniforms
      a.dst a.srcs a.offsets a.dstRegion a.srcRegion).2 }

/-- EnqueueDrawTrianglesCommand mirrors the source. `none` is the panic on
an oversized index count. After the capacity check, the vertex and index
data are appended (indices rebased), the uniform list is built and filtered,
and the call merges with the previous command exactly when no split happened
and the merge predicate accepts; otherwise a fresh command is appended. -/
def EnqueueDrawTrianglesCommand (filt : Shader → List (List ℚ) → List (List ℚ))
    (q : Queue) (a : DrawArgs) : Option Queue :=
  if IndicesCount < a.indices.length then none
  else
    match q.commands.getLast? with
    | some (Command.draw last) =>
      if enqueueSplit q a = false ∧
          CanMergeWithDrawTrianglesCommand last a.dst a.srcs a.vertices a.blend
            a.dstRegion a.shader (enqueueUniforms filt q a) a.evenOdd = true then
        some (enqueueMergedQueue filt q a last)
      else some (enqueueNewQueue filt q a)
    | _ => some (enqueueNewQueue filt q a)

/-- Enqueue mirrors the source: any non-draw-triangles command is appended
unconditionally. -/
def Enqueue (q : Queue) (c : Command) : Queue :=
  { q with commands := q.commands ++ [c] }

/-- C3: a single draw whose index count exceeds the fixed ceiling (65535,
the largest multiple of 3 not exceeding 2^16) makes
EnqueueDrawTrianglesCommand panic (no error value is returned — the
function has no error channel); at or below the ceiling the check never
fires and a queue state is returned. -/
theorem enqueueDrawTriangles_panics_iff
    (filt : Shader → List (List ℚ) → List (List ℚ)) (q : Queue) (a : DrawArgs) :
    EnqueueDrawTrianglesCommand filt q a = none ↔ IndicesCount < a.indices.length := by
  unfold EnqueueDrawTrianglesCommand
  by_cases h : IndicesCount < a.indices.length
  · simp [h]
  · rw [if_neg h]
    refine iff_of_false ?_ h
    intro hcontra
    split at hcontra
    · split at hcontra <;> simp at hcontra
    · simp at hcontra

/-- One driver call of a flush, with the recoverable error it reported. The
log of these calls is the ground truth for which driver calls happened and
in which order. -/
inductive DriverCall where
  | begin (err : Option ℕ)
  | setVertices (verts : List ℚ) (inds : List ℕ) (err : Option ℕ)
  | drawTriangles (nindices indexOffset : ℕ) (err : Option ℕ)
  | otherExec (id : ℕ) (err : Option ℕ)
  | endCall (endFrame : Bool) (err : Option ℕ)
deriving DecidableEq

def DriverCall.errOf : DriverCall → Option ℕ
  | .begin e => e
  | .setVertices _ _ e => e
  | .drawTriangles _ _ e => e
  | .otherExec _ e => e
  | .endCall _ e => e

def DriverCall.isEnd : DriverCall → Bool
  | .endCall _ _ => true
  | _ => false

/-- Driver behavior: the error each call reports (Begin and End once per
flush; SetVertices and DrawTriangles keyed by their call ordinal within the
flush). -/
structure DriverSpec where
  beginErr : Option ℕ
  setVerticesErr : ℕ → Option ℕ
  drawErr : ℕ → Option ℕ
  endErr : Option ℕ

/-- A driver whose calls all succeed. -/
def dOk : DriverSpec := ⟨none, fun _ => none, fun _ => none, none⟩

inductive FlushRes where
  | ok
  | error (e : ℕ)
  | panicked
deriving DecidableEq

/-- drawTrianglesCommand.Exec: a zero-index draw returns nil at once with no
driver call; otherwise one DrawTriangles driver call is made. -/
def drawTrianglesExec (c : DrawTrianglesCommand) (r : Option ℕ)
    (indexOffset : ℕ) : Option ℕ × List DriverCall :=
  if c.nindices = 0 then (none, [])
  else (r, [DriverCall.drawTriangles c.nindices indexOffset r])

/-- The chunk-scanning loop of flush: accumulate vertex-float and index
totals over leading commands, panic on an oversized draw, and stop (keeping
the counts so far) when a further draw would exceed the buffer capacity and
at least one command is already in the chunk. Returns (nv, ne, nc). -/
def takeChunk : List Command → ℕ → ℕ → ℕ → Option (ℕ × ℕ × ℕ)
  | [], nv, ne, nc => some (nv, ne, nc)
  | c :: cs, nv, ne, nc =>
    match c with
    | Command.draw d =>
      if IndicesCount < d.nindices then none
      else if 0 < nc ∧ mustUseDifferentVertexBuffer (nv + d.vertices.length)
          (ne + d.nindices) = true then
        some (nv, ne, nc)
      else takeChunk cs (nv + d.vertices.length) (ne + d.nindices) (nc + 1)
    | Command.other _ _ => takeChunk cs nv ne (nc + 1)

theorem takeChunk_nc_le : ∀ (cs : List Command) (nv ne nc : ℕ) (o : ℕ × ℕ × ℕ),
    takeChunk cs nv ne nc = some o → nc ≤ o.2.2 := by
  intro cs
  induction cs with
  | nil =>
    intro nv ne nc o h
    simp only [takeChunk, Option.some.injEq] at h
    subst h
    exact le_rfl
  | cons c cs ih =>
    intro nv ne nc o h
    cases c with
    | draw d =>
      simp only [takeChunk] at h
      by_cases h1 : IndicesCount < d.nindices
      · rw [if_pos h1] at h
        cases h
      · rw [if_neg h1] at h
        by_cases h2 : 0 < nc ∧ mustUseDifferentVertexBuffer
            (nv + d.vertices.length) (ne + d.nindices) = true
        · rw [if_pos h2] at h
          cases h
          exact le_rfl
        · rw [if_neg h2] at h
          exact le_trans (Nat.le_succ nc) (ih _ _ _ _ h)
    | other i e =>
      simp only [takeChunk] at h
      exact le_trans (Nat.le_succ nc) (ih _ _ _ _ h)

theorem takeChunk_pos (cs : List Command) (nv ne : ℕ) (o : ℕ × ℕ × ℕ)
    (hne : cs ≠ []) (h : takeChunk cs nv ne 0 = some o) : 1 ≤ o.2.2 := by
  cases cs with
  | nil => exact absurd rfl hne
  | cons c cs =>
    cases c with
    | draw d =>
      simp only [takeChunk] at h
      by_cases h1 : IndicesCount < d.nindices
      · rw [if_pos h1] at h
        cases h
      · rw [if_neg h1] at h
        rw [if_neg (by simp)] at h
        exact takeChunk_nc_le _ _ _ _ _ h
    | other i e =>
      simp only [takeChunk] at h
      exact takeChunk_nc_le _ _ _ _ _ h

/-- The per-chunk execution loop of flush: run each command's Exec in order,
stopping at the first error; the running index offset advances by each
draw's index count. Returns (first error, call log, next draw-call
ordinal). -/
def execChunk (d : DriverSpec) : List Command → ℕ → ℕ →
    Option ℕ × List DriverCall × ℕ
  | [], _, drc => (none, [], drc)
  | c :: cs, indexOffset, drc =>
    match c with
    | Command.draw dc =>
      let r := drawTrianglesExec dc (d.drawErr drc) indexOffset
      let drc2 := drc + r.2.length
      match r.1 with
      | some e => (some e, r.2, drc2)
      | none =>
        let rest := execChunk d cs (indexOffset + dc.nindices) drc2
        (rest.1, r.2 ++ rest.2.1, rest.2.2)
    | Command.other i e =>
      match e with
      | some er => (some er, [DriverCall.otherExec i e], drc)
      | none =>
        let rest := execChunk d cs indexOffset drc
        (rest.1, DriverCall.otherExec i e :: rest.2.1, rest.2.2)

/-- The chunked main loop of flush: per chunk, upload the vertex/index
sub-ranges once when the chunk has indices, then execute the chunk's
commands; stop at the first driver error (the deferred End still runs in
`flush`). -/
def flushLoop (d : DriverSpec) (vs : List ℚ) (es : List ℕ) (cs : List Command)
    (svc drc : ℕ) : FlushRes × List DriverCall :=
  if hcs : cs = [] then (FlushRes.ok, [])
  else
    match htc : takeChunk cs 0 0 0 with
    | none => (FlushRes.panicked, [])
    | some (nv, ne, nc) =>
      if 0 < ne then
        let r := d.setVerticesErr svc
        let call := DriverCall.setVertices (vs.take nv) (es.take ne) r
        match r with
        | some e => (FlushRes.error e, [call])
        | none =>
          let ex := execChunk d (cs.take nc) 0 drc
          match ex.1 with
          | some e => (FlushRes.error e, call :: ex.2.1)
          | none =>
            let rest := flushLoop d (vs.drop nv) (es.drop ne) (cs.drop nc)
              (svc + 1) ex.2.2
            (rest.1, call :: ex.2.1 ++ rest.2)
      else
        let ex := execChunk d (cs.take nc) 0 drc
        match ex.1 with
        | some e => (FlushRes.error e, ex.2.1)
        | none =>
          let rest := flushLoop d vs es (cs.drop nc) svc ex.2.2
          (rest.1, ex.2.1 ++ rest.2)
termination_by cs.length
decreasing_by
  all_goals
    have h1 : 1 ≤ nc := takeChunk_pos cs 0 0 (nv, ne, nc) hcs htc
    have h2 : 0 < cs.length := List.length_pos.2 hcs
    simp only [List.length_drop]
    omega

structure FlushOut where
  result : FlushRes
  queue : Queue
  log : List DriverCall

/-- The free-list recycling of the deferred cleanup: every draw-triangles
payload is returned to the pool, capped at 1024 entries. -/
def cleanupPool (pool : ℕ) (cs : List Command) : ℕ :=
  cs.foldl (fun p c => match c with
    | Command.draw _ => if 1024 ≤ p then p else p + 1
    | Command.other _ _ => p) pool

/-- flush mirrors the source. With no commands and endFrame false it is a
no-op. Driver Begin runs first; if it fails, flush returns at once — the
deferred cleanup is registered only after Begin, so the queue is left
untouched. Otherwise the chunked loop runs, and the deferred block always
executes: End is called (its error surfacing only when no earlier error),
draw payloads are pooled, and the command/vertex/index storage is reset.
The deferred block also runs when the loop panics (Go defers run during
unwinding), before the panic propagates. -/
def flush (q : Queue) (d : DriverSpec) (endFrame : Bool) : FlushOut :=
  if q.commands = [] ∧ endFrame = false then ⟨FlushRes.ok, q, []⟩
  else
    match d.beginErr with
    | some e => ⟨FlushRes.error e, q, [DriverCall.begin (some e)]⟩
    | none =>
      let lp := flushLoop d q.vertices q.indices q.commands 0 0
      let res := match lp.1, d.endErr with
        | FlushRes.ok, some e => FlushRes.error e
        | r, _ => r
      ⟨res,
       { q with
           commands := [], vertices := [], indices := [],
           tmpNumVertexFloats := 0, tmpNumIndices := 0,
           pool := cleanupPool q.pool q.commands },
       DriverCall.begin none :: lp.2 ++ [DriverCall.endCall endFrame d.endErr]⟩

/-- Flush mirrors the exported Flush: run flush (on the rendering thread),
then on an end-of-frame flush reset the float arena length to zero (its
contents stay in place and are seen as stale data by the next frame). -/
def Flush (q : Queue) (d : DriverSpec) (endFrame : Bool) : FlushOut :=
  let o := flush q d endFrame
  if endFrame then
    ⟨o.result, { o.queue with float32sBuffer := ⟨o.queue.float32sBuffer.data, 0⟩ },
     o.log⟩
  else o

theorem flushLoop_nil (d : DriverSpec) (vs : List ℚ) (es : List ℕ)
    (svc drc : ℕ) : flushLoop d vs es [] svc drc = (FlushRes.ok, []) := by
  rw [flushLoop.eq_def]
  rfl

/-- One unfolding of flushLoop on a nonempty command list, stated through
the chunk returned by takeChunk. -/
theorem flushLoop_eq (d : DriverSpec) (vs : List ℚ) (es : List ℕ)
    (cs : List Command) (svc drc : ℕ) (hcs : cs ≠ []) (nv ne nc : ℕ)
    (htc : takeChunk cs 0 0 0 = some (nv, ne, nc)) :
    flushLoop d vs es cs svc drc =
      if 0 < ne then
        match d.setVerticesErr svc with
        | some e => (FlushRes.error e,
            [DriverCall.setVertices (vs.take nv) (es.take ne) (some e)])
        | none =>
          match execChunk d (cs.take nc) 0 drc with
          | (some e, lg, _) => (FlushRes.error e,
              DriverCall.setVertices (vs.take nv) (es.take ne) none :: lg)
          | (none, lg, drc2) =>
            ((flushLoop d (vs.drop nv) (es.drop ne) (cs.drop nc) (svc + 1) drc2).1,
             DriverCall.setVertices (vs.take nv) (es.take ne) none ::
               (lg ++ (flushLoop d (vs.drop nv) (es.drop ne) (cs.drop nc)
                 (svc + 1) drc2).2))
      else
        match execChunk d (cs.take nc) 0 drc with
        | (some e, lg, _) => (FlushRes.error e, lg)
        | (none, lg, drc2) =>
          ((flushLoop d vs es (cs.drop nc) svc drc2).1,
           lg ++ (flushLoop d vs es (cs.drop nc) svc drc2).2) := by
  conv_lhs => rw [flushLoop.eq_def]
  rw [dif_neg hcs]
  split
  · rename_i heq
    rw [htc] at heq
    cases heq
  · rename_i nv2 ne2 nc2 heq
    rw [htc] at heq
    obtain ⟨h1, h2, h3⟩ : nv = nv2 ∧ ne = ne2 ∧ nc = nc2 := by
      simpa using heq
    subst h1
    subst h2
    subst h3
    by_cases hne0 : 0 < ne
    · rw [if_pos hne0, if_pos hne0]
      rcases hsv : d.setVerticesErr svc with _ | e
      · simp only [hsv]
        rcases hex : execChunk d (cs.take nc) 0 drc with ⟨r1, lg, drc2⟩
        cases r1 <;> simp [hex]
      · simp [hsv]
    · rw [if_neg hne0, if_neg hne0]
      rcases hex : execChunk d (cs.take nc) 0 drc with ⟨r1, lg, drc2⟩
      cases r1 <;> simp [hex]

/-- Commands whose index count respects the hard ceiling (true of every
queue reachable through the enqueue operations; the flush-side panic is for
violations of this). -/
def cmdIndicesOK : Command → Bool
  | Command.draw dc => decide (dc.nindices ≤ IndicesCount)
  | Command.other _ _ => true

theorem takeChunk_isSome : ∀ (cs : List Command) (nv ne nc : ℕ),
    (∀ c ∈ cs, cmdIndicesOK c = true) → takeChunk cs nv ne nc ≠ none := by
  intro cs
  induction cs with
  | nil =>
    intro nv ne nc _ h
    simp [takeChunk] at h
  | cons c cs ih =>
    intro nv ne nc hwf h
    cases c with
    | draw d =>
      have hok : decide (d.nindices ≤ IndicesCount) = true :=
        hwf (Command.draw d) (List.mem_cons_self _ _)
      have hle : d.nindices ≤ IndicesCount := of_decide_eq_true hok
      simp only [takeChunk] at h
      rw [if_neg (by omega)] at h
      by_cases h2 : 0 < nc ∧ mustUseDifferentVertexBuffer
          (nv + d.vertices.length) (ne + d.nindices) = true
      · rw [if_pos h2] at h
        cases h
      · rw [if_neg h2] at h
        exact ih _ _ _ (fun c hc => hwf c (List.mem_cons_of_mem _ hc)) h
    | other i e =>
      simp only [takeChunk] at h
      exact ih _ _ _ (fun c hc => hwf c (List.mem_cons_of_mem _ hc)) h

theorem execChunk_errs (d : DriverSpec) : ∀ (cs : List Command)
    (indexOffset drc : ℕ),
    ((execChunk d cs indexOffset drc).1 = none →
      (execChunk d cs indexOffset drc).2.1.filterMap DriverCall.errOf = []) ∧
    (∀ e, (execChunk d cs indexOffset drc).1 = some e →
      (execChunk d cs indexOffset drc).2.1.filterMap DriverCall.errOf = [e]) := by
  intro cs
  induction cs with
  | nil =>
    intro indexOffset drc
    constructor
    · intro _
      rfl
    · intro e he
      simp [execChunk] at he
  | cons c cs ih =>
    intro indexOffset drc
    cases c with
    | draw dc =>
      by_cases hni : dc.nindices = 0
      · have hd : ∀ r : Option ℕ, drawTrianglesExec dc r indexOffset = (none, []) := by
          intro r
          unfold drawTrianglesExec
          rw [if_pos hni]
        constructor
        · intro he
          simp only [execChunk, hd] at he ⊢
          exact (ih _ _).1 he
        · intro e he
          simp only [execChunk, hd] at he ⊢
          exact (ih _ _).2 e he
      · rcases hr : d.drawErr drc with _ | e0
        · have hd : drawTrianglesExec dc none indexOffset =
              (none, [DriverCall.drawTriangles dc.nindices indexOffset none]) := by
            unfold drawTrianglesExec
            rw [if_neg hni]
          constructor
          · intro he
            simp only [execChunk, hr, hd, List.filterMap_cons,
              DriverCall.errOf] at he ⊢
            exact (ih _ _).1 he
          · intro e he
            simp only [execChunk, hr, hd, List.filterMap_cons,
              DriverCall.errOf] at he ⊢
            exact (ih _ _).2 e he
        · have hd : drawTrianglesExec dc (some e0) indexOffset =
              (some e0, [DriverCall.drawTriangles dc.nindices indexOffset
                (some e0)]) := by
            unfold drawTrianglesExec
            rw [if_neg hni]
          constructor
          · intro he
            simp only [execChunk, hr, hd] at he
            exact Option.noConfusion he
          · intro e he
            simp only [execChunk, hr, hd] at he ⊢
            cases he
            rfl
    | other i e0 =>
      cases e0 with
      | none =>
        constructor
        · intro he
          simp only [execChunk, List.filterMap_cons, DriverCall.errOf] at he ⊢
          exact (ih _ _).1 he
        · intro e he
          simp only [execChunk, List.filterMap_cons, DriverCall.errOf] at he ⊢
          exact (ih _ _).2 e he
      | some er =>
        constructor
        · intro he
          simp only [execChunk] at he
          exact Option.noConfusion he
        · intro e he
          simp only [execChunk] at he ⊢
          cases he
          rfl

theorem flushLoop_spec (d : DriverSpec) : ∀ (n : ℕ) (cs : List Command),
    cs.length ≤ n → ∀ (vs : List ℚ) (es : List ℕ) (svc drc : ℕ),
    (∀ c ∈ cs, cmdIndicesOK c = true) →
    ((flushLoop d vs es cs svc drc).1 ≠ FlushRes.panicked) ∧
    ((flushLoop d vs es cs svc drc).1 = FlushRes.ok →
      (flushLoop d vs es cs svc drc).2.filterMap DriverCall.errOf = []) ∧
    (∀ e, (flushLoop d vs es cs svc drc).1 = FlushRes.error e →
      (flushLoop d vs es cs svc drc).2.filterMap DriverCall.errOf = [e]) := by
  intro n
  induction n with
  | zero =>
    intro cs hlen vs es svc drc _
    have hnil : cs = [] := List.eq_nil_of_length_eq_zero (Nat.le_zero.1 hlen)
    subst hnil
    refine ⟨by simp [flushLoop_nil], by simp [flushLoop_nil], ?_⟩
    intro e he
    rw [flushLoop_nil] at he
    cases he
  | succ n ih =>
    intro cs hlen vs es svc drc hwf
    by_cases hcs : cs = []
    · subst hcs
      refine ⟨by simp [flushLoop_nil], by simp [flushLoop_nil], ?_⟩
      intro e he
      rw [flushLoop_nil] at he
      cases he
    · rcases htc : takeChunk cs 0 0 0 with _ | ⟨nv, ne, nc⟩
      · exact absurd htc (takeChunk_isSome cs 0 0 0 hwf)
      · have hnc1 : 1 ≤ nc := takeChunk_pos cs 0 0 (nv, ne, nc) hcs htc
        have hlen2 : (cs.drop nc).length ≤ n := by
          rw [List.length_drop]
          have := List.length_pos.2 hcs
          omega
        have hwf2 : ∀ c ∈ cs.drop nc, cmdIndicesOK c = true :=
          fun c hc => hwf c (List.mem_of_mem_drop hc)
        rw [flushLoop_eq d vs es cs svc drc hcs nv ne nc htc]
        by_cases hne0 : 0 < ne
        · rw [if_pos hne0]
          rcases hsv : d.setVerticesErr svc with _ | e1
          · rcases hex : execChunk d (cs.take nc) 0 drc with ⟨r1, lg, drc2⟩
            cases r1 with
            | some e2 =>
              have hlg := (execChunk_errs d (cs.take nc) 0 drc).2 e2 (by rw [hex])
              rw [hex] at hlg
              simp only [hex]
              refine ⟨by simp, by simp, ?_⟩
              intro e he
              cases he
              simp only [List.filterMap_cons, DriverCall.errOf, hlg]
            | none =>
              have hlg := (execChunk_errs d (cs.take nc) 0 drc).1 (by rw [hex])
              rw [hex] at hlg
              obtain ⟨ihp, ihok, iherr⟩ :=
                ih (cs.drop nc) hlen2 (vs.drop nv) (es.drop ne) (svc + 1) drc2 hwf2
              simp only [hex]
              refine ⟨ihp, ?_, ?_⟩
              · intro hok
                simp only [List.filterMap_cons, List.filterMap_append,
                  DriverCall.errOf, hlg, ihok hok]
                rfl
              · intro e he
                simp only [List.filterMap_cons, List.filterMap_append,
                  DriverCall.errOf, hlg, iherr e he]
                rfl
          · refine ⟨by simp, by simp, ?_⟩
            intro e he
            cases he
            simp only [List.filterMap_cons, DriverCall.errOf, List.filterMap_nil]
        · rw [if_neg hne0]
          rcases hex : execChunk d (cs.take nc) 0 drc with ⟨r1, lg, drc2⟩
          cases r1 with
          | some e2 =>
            have hlg := (execChunk_errs d (cs.take nc) 0 drc).2 e2 (by rw [hex])
            rw [hex] at hlg
            simp only [hex]
            refine ⟨by simp, by simp, ?_⟩
            intro e he
            cases he
            exact hlg
          | none =>
            have hlg := (execChunk_errs d (cs.take nc) 0 drc).1 (by rw [hex])
            rw [hex] at hlg
            obtain ⟨ihp, ihok, iherr⟩ :=
              ih (cs.drop nc) hlen2 vs es svc drc2 hwf2
            simp only [hex]
            refine ⟨ihp, ?_, ?_⟩
            · intro hok
              simp only [List.filterMap_append, hlg, ihok hok]
              rfl
            · intro e he
              simp only [List.filterMap_append, hlg, iherr e he]
              rfl

/-- C10: executing a draw-triangles command whose index count is zero
returns nil immediately and performs no driver call at all — the call log is
empty, so in particular DrawTriangles is never invoked. -/
theorem drawTrianglesExec_zero_indices (c : DrawTrianglesCommand)
    (r : Option ℕ) (indexOffset : ℕ) (h : c.nindices = 0) :
    drawTrianglesExec c r indexOffset = (none, []) := by
  unfold drawTrianglesExec
  rw [if_pos h]

/-- A concrete zero-index draw command. -/
def zeroIndexDraw : DrawTrianglesCommand :=
  { dst := ⟨0, 1, 1, false⟩, srcs := ⟨none, none, none, none⟩, vertices := [],
    nindices := 0, blend := ⟨0, 0, 0, 0, 0, 0⟩, dstRegion := ⟨0, 0, 1, 1⟩,
    shader := ⟨0⟩, uniforms := [], evenOdd := false }

theorem drawTrianglesExec_zero_indices_witness :
    zeroIndexDraw.nindices = 0 ∧
    drawTrianglesExec zeroIndexDraw (some 5) 7 = (none, []) :=
  ⟨rfl, drawTrianglesExec_zero_indices zeroIndexDraw (some 5) 7 rfl⟩

/-- A driver whose Begin call fails with error 7, everything else fine. -/
def beginFailDriver : DriverSpec := ⟨some 7, fun _ => none, fun _ => none, none⟩

/-- A queue holding one command and nonempty vertex/index arrays. -/
def dirtyQueue : Queue :=
  { commands := [Command.other 0 none], vertices := [1], indices := [2],
    tmpNumVertexFloats := 8, tmpNumIndices := 1, pool := 0,
    float32sBuffer := ⟨[], 0⟩ }

/-- C4 counterexample: when driver Begin fails, flush returns before the
deferred cleanup is registered, so the queue keeps its command list and
vertex/index arrays — the claim that every Flush (including erroring ones)
leaves them empty fails. -/
theorem flush_beginFail_keeps_queue :
    (Flush dirtyQueue beginFailDriver true).result = FlushRes.error 7 ∧
    (Flush dirtyQueue beginFailDriver true).queue.commands.length = 1 ∧
    (Flush dirtyQueue beginFailDriver true).queue.vertices.length = 1 ∧
    (Flush dirtyQueue beginFailDriver true).queue.indices.length = 1 :=
  ⟨rfl, rfl, rfl, rfl⟩

theorem cleanupPool_le (cs : List Command) :
    ∀ pool, pool ≤ 1024 → cleanupPool pool cs ≤ 1024 := by
  induction cs with
  | nil =>
    intro p hp
    exact hp
  | cons c cs ih =>
    intro p hp
    cases c with
    | draw dc => exact ih (if 1024 ≤ p then p else p + 1) (by split <;> omega)
    | other i e => exact ih p hp

theorem flush_queue_eq (q : Queue) (d : DriverSpec) (endFrame : Bool)
    (hbegin : d.beginErr = none)
    (hcond : ¬ (q.commands = [] ∧ endFrame = false)) :
    (flush q d endFrame).queue =
      { q with
          commands := [], vertices := [], indices := [],
          tmpNumVertexFloats := 0, tmpNumIndices := 0,
          pool := cleanupPool q.pool q.commands } := by
  unfold flush
  rw [if_neg hcond, hbegin]

/-- C4 (amended): after every Flush that is not the empty-queue no-op and
whose driver Begin succeeds — whatever the later calls return — the queue's
command list, vertex array and index array are empty and the free-list holds
at most 1024 entries (given it did before, an invariant of the pool). When
Begin fails the queue is left untouched instead. -/
theorem flush_resets_queue (q : Queue) (d : DriverSpec) (endFrame : Bool)
    (hpool : q.pool ≤ 1024) (hbegin : d.beginErr = none)
    (hne : q.commands ≠ [] ∨ endFrame = true) :
    (Flush q d endFrame).queue.commands = [] ∧
    (Flush q d endFrame).queue.vertices = [] ∧
    (Flush q d endFrame).queue.indices = [] ∧
    (Flush q d endFrame).queue.pool ≤ 1024 := by
  have hcond : ¬ (q.commands = [] ∧ endFrame = false) := by
    rintro ⟨h1, h2⟩
    rcases hne with h | h
    · exact h h1
    · rw [h] at h2
      cases h2
  have hq := flush_queue_eq q d endFrame hbegin hcond
  cases endFrame with
  | false =>
    have hF : Flush q d false = flush q d false := by
      unfold Flush
      simp
    rw [hF, hq]
    exact ⟨rfl, rfl, rfl, cleanupPool_le q.commands q.pool hpool⟩
  | true =>
    have hF : (Flush q d true).queue =
        { (flush q d true).queue with
            float32sBuffer := ⟨(flush q d true).queue.float32sBuffer.data, 0⟩ } := by
      unfold Flush
      simp
    rw [hF, hq]
    exact ⟨rfl, rfl, rfl, cleanupPool_le q.commands q.pool hpool⟩

theorem flush_resets_queue_witness :
    dirtyQueue.pool ≤ 1024 ∧ dOk.beginErr = none ∧
    (dirtyQueue.commands ≠ [] ∨ true = true) ∧
    ((Flush dirtyQueue dOk true).queue.commands = [] ∧
     (Flush dirtyQueue dOk true).queue.vertices = [] ∧
     (Flush dirtyQueue dOk true).queue.indices = [] ∧
     (Flush dirtyQueue dOk true).queue.pool ≤ 1024) :=
  ⟨by decide, rfl, Or.inr rfl,
   flush_resets_queue dirtyQueue dOk true (by decide) rfl (Or.inr rfl)⟩

/-- C5 counterexample: when driver Begin fails, End is never invoked (the
deferred block that calls End is registered only after Begin succeeds), so
the claim that End runs even when an earlier driver call failed is false. -/
theorem flush_beginFail_no_end :
    (Flush dirtyQueue beginFailDriver true).result = FlushRes.error 7 ∧
    (Flush dirtyQueue beginFailDriver true).log = [DriverCall.begin (some 7)] ∧
    (Flush dirtyQueue beginFailDriver true).log.any DriverCall.isEnd = false :=
  ⟨rfl, rfl, rfl⟩

/-- C5 (amended): once Begin has succeeded (and the flush is not the
empty-queue no-op), End is always invoked — it is the last driver call of
the flush — and the result is the first error among the logged driver calls
in order; since End is last, its error is returned exactly when no earlier
call failed. (Commands within the index-count ceiling are assumed, as
enqueue guarantees; an oversized command would panic instead.) If Begin
itself fails, its error is returned and End is not called. -/
theorem flush_end_and_first_error (q : Queue) (d : DriverSpec) (endFrame : Bool)
    (hbegin : d.beginErr = none)
    (hne : q.commands ≠ [] ∨ endFrame = true)
    (hwf : ∀ c ∈ q.commands, cmdIndicesOK c = true) :
    (Flush q d endFrame).log.getLast? =
      some (DriverCall.endCall endFrame d.endErr) ∧
    (Flush q d endFrame).result =
      (match ((Flush q d endFrame).log.filterMap DriverCall.errOf).head? with
       | some e => FlushRes.error e
       | none => FlushRes.ok) := by
  have hcond : ¬ (q.commands = [] ∧ endFrame = false) := by
    rintro ⟨h1, h2⟩
    rcases hne with h | h
    · exact h h1
    · rw [h] at h2
      cases h2
  have hflush : flush q d endFrame =
      ⟨(match (flushLoop d q.vertices q.indices q.commands 0 0).1, d.endErr with
        | FlushRes.ok, some e => FlushRes.error e
        | r, _ => r),
       { q with
           commands := [], vertices := [], indices := [],
           tmpNumVertexFloats := 0, tmpNumIndices := 0,
           pool := cleanupPool q.pool q.commands },
       DriverCall.begin none ::
         (flushLoop d q.vertices q.indices q.commands 0 0).2 ++
         [DriverCall.endCall endFrame d.endErr]⟩ := by
    unfold flush
    rw [if_neg hcond, hbegin]
  have hlog : (Flush q d endFrame).log = (flush q d endFrame).log := by
    unfold Flush
    cases endFrame <;> simp
  have hres : (Flush q d endFrame).result = (flush q d endFrame).result := by
    unfold Flush
    cases endFrame <;> simp
  rw [hlog, hres, hflush]
  obtain ⟨hnp, hok, herr⟩ := flushLoop_spec d q.commands.length q.commands
    le_rfl q.vertices q.indices 0 0 hwf
  constructor
  · show ((DriverCall.begin none ::
      (flushLoop d q.vertices q.indices q.commands 0 0).2) ++
      [DriverCall.endCall endFrame d.endErr]).getLast? = _
    rw [List.getLast?_concat]
  · rcases hr : (flushLoop d q.vertices q.indices q.commands 0 0).1 with _ | e | _
    · have hl := hok hr
      cases he : d.endErr with
      | none =>
        simp [hr, he, List.filterMap_cons, List.filterMap_append,
          DriverCall.errOf, hl]
      | some e1 =>
        simp [hr, he, List.filterMap_cons, List.filterMap_append,
          DriverCall.errOf, hl]
    · have hl := herr e hr
      cases he : d.endErr with
      | none =>
        simp [hr, he, List.filterMap_cons, List.filterMap_append,
          DriverCall.errOf, hl]
      | some e1 =>
        simp [hr, he, List.filterMap_cons, List.filterMap_append,
          DriverCall.errOf, hl]
    · exact absurd hr hnp

/-- A queue holding one well-formed command for the C5 witness. -/
def oneOtherQueue : Queue := { emptyQueue with commands := [Command.other 3 none] }

theorem flush_end_and_first_error_witness :
    dOk.beginErr = none ∧ (oneOtherQueue.commands ≠ [] ∨ true = true) ∧
    (∀ c ∈ oneOtherQueue.commands, cmdIndicesOK c = true) ∧
    ((Flush oneOtherQueue dOk true).log.getLast? =
       some (DriverCall.endCall true dOk.endErr) ∧
     (Flush oneOtherQueue dOk true).result =
       (match ((Flush oneOtherQueue dOk true).log.filterMap
           DriverCall.errOf).head? with
        | some e => FlushRes.error e
        | none => FlushRes.ok)) :=
  ⟨rfl, Or.inr rfl, by decide,
   flush_end_and_first_error oneOtherQueue dOk true rfl (Or.inr rfl) (by decide)⟩

def c6arena : Arena := ⟨[], 0⟩

def c6img : Image := ⟨1, 2, 2, false⟩

def c6srcsW : Srcs := ⟨some c6img, none, none, none⟩

def c6offsets : List (ℚ × ℚ) := [(0, 0), (0, 0), (0, 0)]

def c6reg : Region := ⟨0, 0, 2, 2⟩

def c6uniforms : List (List ℚ) := [[1]]

theorem prependPreservedUniforms_structure_witness :
    c6arena.ZeroTail ∧
    ((prependPreservedUniforms c6arena c6uniforms c6img c6srcsW c6offsets c6reg
        c6reg).1.length = PreservedUniformVariablesCount + c6uniforms.length ∧
     (prependPreservedUniforms c6arena c6uniforms c6img c6srcsW c6offsets c6reg
        c6reg).1.drop PreservedUniformVariablesCount = c6uniforms ∧
     ((prependPreservedUniforms c6arena c6uniforms c6img c6srcsW c6offsets c6reg
        c6reg).1.getD TextureSourceSizesUniformVariableIndex []).length = 2 * 4 ∧
     (∀ i, i < 4 → c6srcsW.toList.getD i none = none →
       ((prependPreservedUniforms c6arena c6uniforms c6img c6srcsW c6offsets
          c6reg c6reg).1.getD TextureSourceSizesUniformVariableIndex []).getD
          (2 * i) 0 = 0 ∧
       ((prependPreservedUniforms c6arena c6uniforms c6img c6srcsW c6offsets
          c6reg c6reg).1.getD TextureSourceSizesUniformVariableIndex []).getD
          (2 * i + 1) 0 = 0)) :=
  ⟨by intro x hx; simp [c6arena] at hx,
   prependPreservedUniforms_structure c6arena c6uniforms c6img c6srcsW c6offsets
     c6reg c6reg (by intro x hx; simp [c6arena] at hx)⟩

/-- The identity shader-reflection filter (a shader using every uniform). -/
def filtId : Shader → List (List ℚ) → List (List ℚ) := fun _ u => u

def c6argsA : DrawArgs :=
  { dst := c6img, srcs := ⟨none, none, none, none⟩, offsets := c6offsets,
    vertices := [], indices := [0, 0, 0], blend := ⟨0, 0, 0, 0, 0, 0⟩,
    dstRegion := c6reg, srcRegion := ⟨0, 0, 3, 5⟩, shader := ⟨0⟩,
    uniforms := [], evenOdd := false }

def c6q1 : Queue := (EnqueueDrawTrianglesCommand filtId emptyQueue c6argsA).getD emptyQueue

def c6q2 : Queue := (Flush c6q1 dOk true).queue

def c6q3 : Queue := (EnqueueDrawTrianglesCommand filtId c6q2 c6argsA).getD emptyQueue

def c6cmd : DrawTrianglesCommand :=
  match c6q3.commands with
  | [Command.draw dc] => dc
  | _ => zeroIndexDraw

/-- C6 counterexample: run one frame (enqueue a draw whose source region
writes the nonzero floats 3 and 5 into the arena, then an end-of-frame
Flush, which resets the arena length but keeps its contents), then enqueue
again. Source slot 3 of the second command is nil, yet the source-sizes
entry of the uniform list built for it holds the previous frame's stale
floats 3 and 5 at that slot, not zeros — refuting the zero-fill part of the
claim. -/
theorem prepend_stale_counterexample :
    c6q3.commands.length = 1 ∧
    c6cmd.srcs.s3 = none ∧
    (c6cmd.uniforms.getD TextureSourceSizesUniformVariableIndex []).getD
      (2 * 3) 0 = 3 ∧
    (c6cmd.uniforms.getD TextureSourceSizesUniformVariableIndex []).getD
      (2 * 3 + 1) 0 = 5 :=
  ⟨rfl, rfl, rfl, rfl⟩


/-- Number of vertex floats a queued command references (non-draw commands
reference none). -/
def cmdNumVertices : Command → ℕ
  | Command.draw dc => dc.vertices.length
  | Command.other _ _ => 0

/-- Number of indices a queued command references. -/
def cmdNumIndices : Command → ℕ
  | Command.draw dc => dc.nindices
  | Command.other _ _ => 0

/-- Fold EnqueueDrawTrianglesCommand over a sequence of calls, propagating
the panic. -/
def enqueueAll (filt : Shader → List (List ℚ) → List (List ℚ)) :
    Queue → List DrawArgs → Option Queue
  | q, [] => some q
  | q, a :: rest =>
    match EnqueueDrawTrianglesCommand filt q a with
    | none => none
    | some q2 => enqueueAll filt q2 rest

/-- Total vertex floats submitted over a call sequence. -/
def sumVFloats (L : List DrawArgs) : ℕ :=
  (L.map fun a => a.vertices.length).sum

/-- Total indices submitted over a call sequence. -/
def sumInds (L : List DrawArgs) : ℕ :=
  (L.map fun a => a.indices.length).sum

/-- The chunk-relative vertex offset the enqueue path adds to each call's
indices, obtained by replaying the split/reset rule on the running
vertex-float and index totals. -/
def specOffsets : ℕ → ℕ → List DrawArgs → List ℕ
  | _, _, [] => []
  | tmpV, tmpI, a :: rest =>
    let split := mustUseDifferentVertexBuffer (tmpV + a.vertices.length)
      (tmpI + a.indices.length)
    let tV := if split then 0 else tmpV
    let tI := if split then 0 else tmpI
    tV / VertexFloatCount ::
      specOffsets (tV + a.vertices.length) (tI + a.indices.length) rest

/-- The rebased index list of each call, in submission order. -/
def rebasedFrom : ℕ → ℕ → List DrawArgs → List (List ℕ)
  | _, _, [] => []
  | tmpV, tmpI, a :: rest =>
    let split := mustUseDifferentVertexBuffer (tmpV + a.vertices.length)
      (tmpI + a.indices.length)
    let tV := if split then 0 else tmpV
    let tI := if split then 0 else tmpI
    a.indices.map (fun ix => (ix + tV / VertexFloatCount) % 65536) ::
      rebasedFrom (tV + a.vertices.length) (tI + a.indices.length) rest

/-- The SetVertices uploads of a driver-call log, in order: for each upload,
the vertex floats and the indices it transferred. -/
def uploadsOf (log : List DriverCall) : List (List ℚ × List ℕ) :=
  log.filterMap fun c =>
    match c with
    | DriverCall.setVertices v i _ => some (v, i)
    | _ => none

theorem rebasedFrom_eq_zip : ∀ (L : List DrawArgs) (tmpV tmpI : ℕ),
    rebasedFrom tmpV tmpI L =
      (L.zip (specOffsets tmpV tmpI L)).map fun p =>
        p.1.indices.map fun ix => (ix + p.2) % 65536 := by
  intro L
  induction L with
  | nil => intro tmpV tmpI; rfl
  | cons a rest ih =>
    intro tmpV tmpI
    simp only [rebasedFrom, specOffsets, List.zip_cons_cons, List.map_cons]
    rw [ih]

theorem rebasedFrom_flatten_length : ∀ (L : List DrawArgs) (tmpV tmpI : ℕ),
    (rebasedFrom tmpV tmpI L).flatten.length = sumInds L := by
  intro L
  induction L with
  | nil => intro tmpV tmpI; rfl
  | cons a rest ih =>
    intro tmpV tmpI
    simp only [rebasedFrom, List.flatten_cons, List.length_append,
      List.length_map, ih, sumInds, List.map_cons, List.sum_cons]

/-- Undoing the uint16 rebasing: for an original index below 2^16, adding
the additive inverse of the offset modulo 2^16 recovers the index. -/
theorem rebase_undo (ix o : ℕ) (hix : ix < 65536) :
    ((ix + o) % 65536 + (65536 - o % 65536)) % 65536 = ix := by
  omega

theorem rebase_undo_map (inds : List ℕ) (o : ℕ)
    (h : ∀ ix ∈ inds, ix < 65536) :
    (inds.map fun ix => (ix + o) % 65536).map
      (fun v => (v + (65536 - o % 65536)) % 65536) = inds := by
  induction inds with
  | nil => rfl
  | cons b bs ih =>
    simp only [List.map_cons, List.cons.injEq]
    refine ⟨rebase_undo b o (h b (List.mem_cons_self _ _)), ?_⟩
    exact ih fun ix hx => h ix (List.mem_cons_of_mem _ hx)

theorem mustUse_false_iff (nv ne : ℕ) :
    mustUseDifferentVertexBuffer nv ne = false ↔
      nv ≤ IndicesCount * VertexFloatCount ∧ ne ≤ IndicesCount := by
  simp [mustUseDifferentVertexBuffer, Nat.not_lt]

theorem eq_dropLast_concat {α : Type} {l : List α} {c : α}
    (h : l.getLast? = some c) : l = l.dropLast ++ [c] := by
  have hne : l ≠ [] := by
    intro he
    subst he
    cases h
  rw [List.getLast?_eq_getLast l hne, Option.some.injEq] at h
  rw [← h]
  exact (List.dropLast_append_getLast hne).symm

/-- The invariant the enqueue path maintains on a queue built purely out of
EnqueueDrawTrianglesCommand calls with nonempty index lists: every command
is a draw, the per-command vertex/index sizes sum to the shared array
lengths, every command fits in one chunk on its own, and the running
counters bound the current last command. -/
structure QInv (q : Queue) : Prop where
  allDraw : ∀ c ∈ q.commands, ∃ dc, c = Command.draw dc
  sumNv : (q.commands.map cmdNumVertices).sum = q.vertices.length
  sumNe : (q.commands.map cmdNumIndices).sum = q.indices.length
  cmdV : ∀ c ∈ q.commands, cmdNumVertices c ≤ IndicesCount * VertexFloatCount
  cmdIpos : ∀ c ∈ q.commands, 1 ≤ cmdNumIndices c
  cmdI : ∀ c ∈ q.commands, cmdNumIndices c ≤ IndicesCount
  lastB : ∀ c2, q.commands.getLast? = some c2 →
    cmdNumVertices c2 ≤ q.tmpNumVertexFloats ∧
    cmdNumIndices c2 ≤ q.tmpNumIndices
  tmpVle : q.tmpNumVertexFloats ≤ IndicesCount * VertexFloatCount
  tmpIle : q.tmpNumIndices ≤ IndicesCount

theorem qinv_empty : QInv emptyQueue := by
  refine ⟨?_, rfl, rfl, ?_, ?_, ?_, ?_, ?_, ?_⟩ <;> simp [emptyQueue]


theorem qinv_new (filt : Shader → List (List ℚ) → List (List ℚ))
    (q : Queue) (a : DrawArgs)
    (hV : a.vertices.length ≤ IndicesCount * VertexFloatCount)
    (hI1 : 1 ≤ a.indices.length) (hle : a.indices.length ≤ IndicesCount)
    (hinv : QInv q) : QInv (enqueueNewQueue filt q a) := by
  have hvlen : ((enqueueVertices q a).drop
      ((enqueueVertices q a).length - a.vertices.length)).length =
      a.vertices.length := by
    simp only [List.length_drop, enqueueVertices, List.length_append]
    omega
  refine ⟨?_, ?_, ?_, ?_, ?_, ?_, ?_, ?_, ?_⟩
  · intro c hc
    simp only [enqueueNewQueue, List.mem_append, List.mem_singleton] at hc
    rcases hc with hc | hc
    · exact hinv.allDraw c hc
    · exact ⟨_, hc⟩
  · have h1 := hinv.sumNv
    simp only [enqueueNewQueue, List.map_append, List.map_cons, List.map_nil,
      List.sum_append, List.sum_cons, List.sum_nil, cmdNumVertices, hvlen]
    simp only [enqueueVertices, List.length_append]
    omega
  · have h1 := hinv.sumNe
    simp only [enqueueNewQueue, List.map_append, List.map_cons, List.map_nil,
      List.sum_append, List.sum_cons, List.sum_nil, cmdNumIndices,
      enqueueIndices, List.length_append, List.length_map]
    omega
  · intro c hc
    simp only [enqueueNewQueue, List.mem_append, List.mem_singleton] at hc
    rcases hc with hc | hc
    · exact hinv.cmdV c hc
    · subst hc
      simpa only [cmdNumVertices, hvlen] using hV
  · intro c hc
    simp only [enqueueNewQueue, List.mem_append, List.mem_singleton] at hc
    rcases hc with hc | hc
    · exact hinv.cmdIpos c hc
    · subst hc
      simpa only [cmdNumIndices] using hI1
  · intro c hc
    simp only [enqueueNewQueue, List.mem_append, List.mem_singleton] at hc
    rcases hc with hc | hc
    · exact hinv.cmdI c hc
    · subst hc
      simpa only [cmdNumIndices] using hle
  · intro c2 hc2
    simp only [enqueueNewQueue, List.getLast?_concat, Option.some.injEq] at hc2
    subst hc2
    constructor
    · simp only [enqueueNewQueue, cmdNumVertices, hvlen]
      omega
    · simp only [enqueueNewQueue, cmdNumIndices]
      omega
  · simp only [enqueueNewQueue, enqueueTmpV0]
    split
    · omega
    · rename_i hs
      simp only [Bool.not_eq_true] at hs
      unfold enqueueSplit at hs
      have h2 := ((mustUse_false_iff _ _).1 hs).1
      omega
  · simp only [enqueueNewQueue, enqueueTmpI0]
    split
    · omega
    · rename_i hs
      simp only [Bool.not_eq_true] at hs
      unfold enqueueSplit at hs
      have h2 := ((mustUse_false_iff _ _).1 hs).2
      omega

theorem qinv_merged (filt : Shader → List (List ℚ) → List (List ℚ))
    (q : Queue) (a : DrawArgs) (last : DrawTrianglesCommand)
    (hV : a.vertices.length ≤ IndicesCount * VertexFloatCount)
    (hI1 : 1 ≤ a.indices.length)
    (hinv : QInv q)
    (hlast : q.commands.getLast? = some (Command.draw last))
    (hsp : enqueueSplit q a = false) :
    QInv (enqueueMergedQueue filt q a last) := by
  have hdec : q.commands = q.commands.dropLast ++ [Command.draw last] :=
    eq_dropLast_concat hlast
  have hlnv : last.vertices.length ≤ q.tmpNumVertexFloats := by
    have := (hinv.lastB _ hlast).1
    simpa only [cmdNumVertices] using this
  have hlne : last.nindices ≤ q.tmpNumIndices := by
    have := (hinv.lastB _ hlast).2
    simpa only [cmdNumIndices] using this
  unfold enqueueSplit at hsp
  have hcap := (mustUse_false_iff _ _).1 hsp
  have hmemOld : ∀ c ∈ q.commands.dropLast, c ∈ q.commands := by
    intro c hc
    rw [hdec]
    exact List.mem_append_left _ hc
  have hnvq : last.vertices.length ≤ q.vertices.length := by
    have h1 := hinv.sumNv
    rw [hdec] at h1
    simp only [List.map_append, List.sum_append, List.map_cons, List.map_nil,
      List.sum_cons, List.sum_nil, cmdNumVertices] at h1
    omega
  have hneq : last.nindices ≤ q.indices.length := by
    have h1 := hinv.sumNe
    rw [hdec] at h1
    simp only [List.map_append, List.sum_append, List.map_cons, List.map_nil,
      List.sum_cons, List.sum_nil, cmdNumIndices] at h1
    omega
  have hvlen : ((enqueueVertices q a).drop
      ((enqueueVertices q a).length -
        (a.vertices.length + last.vertices.length))).length =
      a.vertices.length + last.vertices.length := by
    simp only [List.length_drop, enqueueVertices, List.length_append]
    omega
  have htv0 : enqueueTmpV0 q a = q.tmpNumVertexFloats := by
    simp [enqueueTmpV0, enqueueSplit, hsp]
  have hti0 : enqueueTmpI0 q a = q.tmpNumIndices := by
    simp [enqueueTmpI0, enqueueSplit, hsp]
  refine ⟨?_, ?_, ?_, ?_, ?_, ?_, ?_, ?_, ?_⟩
  · intro c hc
    simp only [enqueueMergedQueue, List.mem_append, List.mem_singleton] at hc
    rcases hc with hc | hc
    · exact hinv.allDraw c (hmemOld c hc)
    · exact ⟨_, hc⟩
  · have h1 := hinv.sumNv
    rw [hdec] at h1
    simp only [List.map_append, List.sum_append, List.map_cons, List.map_nil,
      List.sum_cons, List.sum_nil, cmdNumVertices] at h1
    simp only [enqueueMergedQueue, List.map_append, List.map_cons,
      List.map_nil, List.sum_append, List.sum_cons, List.sum_nil,
      cmdNumVertices, hvlen]
    simp only [enqueueVertices, List.length_append]
    omega
  · have h1 := hinv.sumNe
    rw [hdec] at h1
    simp only [List.map_append, List.sum_append, List.map_cons, List.map_nil,
      List.sum_cons, List.sum_nil, cmdNumIndices] at h1
    simp only [enqueueMergedQueue, List.map_append, List.map_cons,
      List.map_nil, List.sum_append, List.sum_cons, List.sum_nil,
      cmdNumIndices, enqueueIndices, List.length_append, List.length_map]
    omega
  · intro c hc
    simp only [enqueueMergedQueue, List.mem_append, List.mem_singleton] at hc
    rcases hc with hc | hc
    · exact hinv.cmdV c (hmemOld c hc)
    · subst hc
      simp only [cmdNumVertices, hvlen]
      omega
  · intro c hc
    simp only [enqueueMergedQueue, List.mem_append, List.mem_singleton] at hc
    rcases hc with hc | hc
    · exact hinv.cmdIpos c (hmemOld c hc)
    · subst hc
      simp only [cmdNumIndices]
      omega
  · intro c hc
    simp only [enqueueMergedQueue, List.mem_append, List.mem_singleton] at hc
    rcases hc with hc | hc
    · exact hinv.cmdI c (hmemOld c hc)
    · subst hc
      simp only [cmdNumIndices]
      omega
  · intro c2 hc2
    simp only [enqueueMergedQueue, List.getLast?_concat,
      Option.some.injEq] at hc2
    subst hc2
    constructor
    · simp only [enqueueMergedQueue, cmdNumVertices, hvlen, htv0]
      omega
    · simp only [enqueueMergedQueue, cmdNumIndices, hti0]
      omega
  · simp only [enqueueMergedQueue, htv0]
    omega
  · simp only [enqueueMergedQueue, hti0]
    omega

theorem enqueue_step (filt : Shader → List (List ℚ) → List (List ℚ))
    (q : Queue) (a : DrawArgs) (q2 : Queue)
    (hV : a.vertices.length ≤ IndicesCount * VertexFloatCount)
    (hI1 : 1 ≤ a.indices.length)
    (hinv : QInv q)
    (h : EnqueueDrawTrianglesCommand filt q a = some q2) :
    QInv q2 ∧
    q2.vertices = q.vertices ++ a.vertices ∧
    q2.indices = q.indices ++
      a.indices.map
        (fun ix => (ix + enqueueTmpV0 q a / VertexFloatCount) % 65536) ∧
    q2.tmpNumVertexFloats = enqueueTmpV0 q a + a.vertices.length ∧
    q2.tmpNumIndices = enqueueTmpI0 q a + a.indices.length := by
  have hle : a.indices.length ≤ IndicesCount := by
    by_contra hgt
    unfold EnqueueDrawTrianglesCommand at h
    rw [if_pos (Nat.lt_of_not_le fun hx => hgt hx)] at h
    cases h
  unfold EnqueueDrawTrianglesCommand at h
  rw [if_neg (Nat.not_lt.2 hle)] at h
  split at h
  · rename_i last heq
    split at h
    · rename_i hcond
      injection h with h
      subst h
      exact ⟨qinv_merged filt q a last hV hI1 hinv heq hcond.1, rfl, rfl,
        rfl, rfl⟩
    · injection h with h
      subst h
      exact ⟨qinv_new filt q a hV hI1 hle hinv, rfl, rfl, rfl, rfl⟩
  · injection h with h
    subst h
    exact ⟨qinv_new filt q a hV hI1 hle hinv, rfl, rfl, rfl, rfl⟩

theorem enqueueAll_spec (filt : Shader → List (List ℚ) → List (List ℚ)) :
    ∀ (L : List DrawArgs) (q q2 : Queue),
    (∀ a ∈ L, a.vertices.length ≤ IndicesCount * VertexFloatCount ∧
      1 ≤ a.indices.length) →
    QInv q →
    enqueueAll filt q L = some q2 →
    QInv q2 ∧
    q2.vertices.length = q.vertices.length + sumVFloats L ∧
    q2.indices = q.indices ++
      (rebasedFrom q.tmpNumVertexFloats q.tmpNumIndices L).flatten := by
  intro L
  induction L with
  | nil =>
    intro q q2 _ hq h
    simp only [enqueueAll, Option.some.injEq] at h
    subst h
    exact ⟨hq, by simp [sumVFloats], by simp [rebasedFrom]⟩
  | cons a rest ih =>
    intro q q2 hok hq h
    simp only [enqueueAll] at h
    rcases he : EnqueueDrawTrianglesCommand filt q a with _ | qmid
    · rw [he] at h
      cases h
    · rw [he] at h
      have ha := hok a (List.mem_cons_self _ _)
      obtain ⟨hstep, hv2, hi2, htv2, hti2⟩ :=
        enqueue_step filt q a qmid ha.1 ha.2 hq he
      obtain ⟨hq2, hv3, hi3⟩ :=
        ih qmid q2 (fun b hb => hok b (List.mem_cons_of_mem _ hb)) hstep h
      refine ⟨hq2, ?_, ?_⟩
      · rw [hv3, hv2]
        simp only [List.length_append, sumVFloats, List.map_cons,
          List.sum_cons]
        omega
      · rw [hi3, hi2, htv2, hti2]
        simp only [rebasedFrom, List.flatten_cons, List.append_assoc,
          enqueueTmpV0, enqueueTmpI0, enqueueSplit]


theorem takeChunk_sums : ∀ (cs : List Command) (nv ne nc : ℕ) (o : ℕ × ℕ × ℕ),
    takeChunk cs nv ne nc = some o →
    ∃ k, k ≤ cs.length ∧ o.2.2 = nc + k ∧
      o.1 = nv + ((cs.take k).map cmdNumVertices).sum ∧
      o.2.1 = ne + ((cs.take k).map cmdNumIndices).sum := by
  intro cs
  induction cs with
  | nil =>
    intro nv ne nc o h
    simp only [takeChunk, Option.some.injEq] at h
    subst h
    exact ⟨0, by simp⟩
  | cons c cs ih =>
    intro nv ne nc o h
    cases c with
    | draw d =>
      simp only [takeChunk] at h
      by_cases h1 : IndicesCount < d.nindices
      · rw [if_pos h1] at h
        cases h
      · rw [if_neg h1] at h
        by_cases h2 : 0 < nc ∧ mustUseDifferentVertexBuffer
            (nv + d.vertices.length) (ne + d.nindices) = true
        · rw [if_pos h2] at h
          cases h
          exact ⟨0, by simp⟩
        · rw [if_neg h2] at h
          obtain ⟨k, hk1, hk2, hk3, hk4⟩ := ih _ _ _ _ h
          refine ⟨k + 1, ?_, ?_, ?_, ?_⟩
          · simp only [List.length_cons]
            omega
          · omega
          · simp only [List.take_succ_cons, List.map_cons, List.sum_cons,
              cmdNumVertices]
            omega
          · simp only [List.take_succ_cons, List.map_cons, List.sum_cons,
              cmdNumIndices]
            omega
    | other i e =>
      simp only [takeChunk] at h
      obtain ⟨k, hk1, hk2, hk3, hk4⟩ := ih _ _ _ _ h
      refine ⟨k + 1, ?_, ?_, ?_, ?_⟩
      · simp only [List.length_cons]
        omega
      · omega
      · simp only [List.take_succ_cons, List.map_cons, List.sum_cons,
          cmdNumVertices]
        omega
      · simp only [List.take_succ_cons, List.map_cons, List.sum_cons,
          cmdNumIndices]
        omega

theorem takeChunk_le : ∀ (cs : List Command) (nv ne nc : ℕ) (o : ℕ × ℕ × ℕ),
    (∀ c ∈ cs, cmdNumVertices c ≤ IndicesCount * VertexFloatCount) →
    (∀ c ∈ cs, cmdNumIndices c ≤ IndicesCount) →
    (0 < nc → nv ≤ IndicesCount * VertexFloatCount ∧ ne ≤ IndicesCount) →
    (nc = 0 → nv = 0 ∧ ne = 0) →
    takeChunk cs nv ne nc = some o →
    o.1 ≤ IndicesCount * VertexFloatCount ∧ o.2.1 ≤ IndicesCount := by
  intro cs
  induction cs with
  | nil =>
    intro nv ne nc o _ _ hpos hzero h
    simp only [takeChunk, Option.some.injEq] at h
    subst h
    rcases Nat.eq_zero_or_pos nc with h0 | h0
    · obtain ⟨h1, h2⟩ := hzero h0
      simp [h1, h2]
    · exact hpos h0
  | cons c cs ih =>
    intro nv ne nc o hcv hci hpos hzero h
    have hcv2 : ∀ b ∈ cs, cmdNumVertices b ≤ IndicesCount * VertexFloatCount :=
      fun b hb => hcv b (List.mem_cons_of_mem _ hb)
    have hci2 : ∀ b ∈ cs, cmdNumIndices b ≤ IndicesCount :=
      fun b hb => hci b (List.mem_cons_of_mem _ hb)
    cases c with
    | draw d =>
      have hdv : d.vertices.length ≤ IndicesCount * VertexFloatCount := by
        have := hcv _ (List.mem_cons_self _ _)
        simpa only [cmdNumVertices] using this
      have hdi : d.nindices ≤ IndicesCount := by
        have := hci _ (List.mem_cons_self _ _)
        simpa only [cmdNumIndices] using this
      simp only [takeChunk] at h
      by_cases h1 : IndicesCount < d.nindices
      · rw [if_pos h1] at h
        cases h
      · rw [if_neg h1] at h
        by_cases h2 : 0 < nc ∧ mustUseDifferentVertexBuffer
            (nv + d.vertices.length) (ne + d.nindices) = true
        · rw [if_pos h2] at h
          cases h
          exact hpos h2.1
        · rw [if_neg h2] at h
          refine ih _ _ _ _ hcv2 hci2 ?_ (by omega) h
          intro _
          rcases Nat.eq_zero_or_pos nc with h0 | h0
          · obtain ⟨hz1, hz2⟩ := hzero h0
            constructor
            · omega
            · omega
          · have hmu : mustUseDifferentVertexBuffer (nv + d.vertices.length)
                (ne + d.nindices) = false := by
              cases hm : mustUseDifferentVertexBuffer (nv + d.vertices.length)
                  (ne + d.nindices)
              · rfl
              · exact absurd ⟨h0, hm⟩ h2
            exact (mustUse_false_iff _ _).1 hmu
    | other i e =>
      simp only [takeChunk] at h
      refine ih _ _ _ _ hcv2 hci2 ?_ (by omega) h
      intro _
      rcases Nat.eq_zero_or_pos nc with h0 | h0
      · obtain ⟨hz1, hz2⟩ := hzero h0
        simp [hz1, hz2]
      · exact hpos h0

theorem execChunk_ok (d : DriverSpec) (hdr : ∀ k, d.drawErr k = none) :
    ∀ (cs : List Command) (io drc : ℕ),
    (∀ c ∈ cs, ∃ dc, c = Command.draw dc) →
    (execChunk d cs io drc).1 = none := by
  intro cs
  induction cs with
  | nil => intro io drc _; rfl
  | cons c cs ih =>
    intro io drc hdraw
    cases c with
    | draw dc =>
      have hr : (drawTrianglesExec dc (d.drawErr drc) io).1 = none := by
        unfold drawTrianglesExec
        split
        · rfl
        · exact hdr drc
      simp only [execChunk, hr]
      exact ih _ _ fun b hb => hdraw b (List.mem_cons_of_mem _ hb)
    | other i e =>
      obtain ⟨dc, hdc⟩ := hdraw _ (List.mem_cons_self _ _)
      cases hdc

theorem uploadsOf_append (l1 l2 : List DriverCall) :
    uploadsOf (l1 ++ l2) = uploadsOf l1 ++ uploadsOf l2 :=
  List.filterMap_append _ _ _

theorem drawExec_uploads (c : DrawTrianglesCommand) (r : Option ℕ) (io : ℕ) :
    uploadsOf (drawTrianglesExec c r io).2 = [] := by
  unfold drawTrianglesExec
  split <;> simp [uploadsOf]

theorem execChunk_uploads (d : DriverSpec) : ∀ (cs : List Command)
    (io drc : ℕ), uploadsOf (execChunk d cs io drc).2.1 = [] := by
  intro cs
  induction cs with
  | nil => intro io drc; rfl
  | cons c cs ih =>
    intro io drc
    cases c with
    | draw dc =>
      simp only [execChunk]
      split
      · exact drawExec_uploads _ _ _
      · rw [uploadsOf_append, drawExec_uploads, ih]
        rfl
    | other i e =>
      cases e with
      | none =>
        simp only [execChunk]
        have h1 : uploadsOf (DriverCall.otherExec i none ::
            (execChunk d cs io drc).2.1) =
            uploadsOf (execChunk d cs io drc).2.1 := by
          simp [uploadsOf]
        rw [h1, ih]
      | some er => simp [execChunk, uploadsOf]


theorem uploadsOf_setVertices_cons (v : List ℚ) (i : List ℕ) (e : Option ℕ)
    (l : List DriverCall) :
    uploadsOf (DriverCall.setVertices v i e :: l) = (v, i) :: uploadsOf l := by
  simp [uploadsOf]

theorem flushLoop_uploads (d : DriverSpec)
    (hsv : ∀ k, d.setVerticesErr k = none)
    (hdr : ∀ k, d.drawErr k = none) :
    ∀ (n : ℕ) (cs : List Command), cs.length ≤ n →
    ∀ (vs : List ℚ) (es : List ℕ) (svc drc : ℕ),
    (∀ c ∈ cs, ∃ dc, c = Command.draw dc) →
    (∀ c ∈ cs, cmdNumVertices c ≤ IndicesCount * VertexFloatCount) →
    (∀ c ∈ cs, 1 ≤ cmdNumIndices c) →
    (∀ c ∈ cs, cmdNumIndices c ≤ IndicesCount) →
    ((uploadsOf (flushLoop d vs es cs svc drc).2).map Prod.snd).flatten =
        es.take ((cs.map cmdNumIndices).sum) ∧
    (∀ u ∈ uploadsOf (flushLoop d vs es cs svc drc).2,
        u.1.length ≤ IndicesCount * VertexFloatCount ∧
        u.2.length ≤ IndicesCount) ∧
    (cs ≠ [] → 1 ≤ (uploadsOf (flushLoop d vs es cs svc drc).2).length) ∧
    (IndicesCount * VertexFloatCount < (cs.map cmdNumVertices).sum ∨
        IndicesCount < (cs.map cmdNumIndices).sum →
        2 ≤ (uploadsOf (flushLoop d vs es cs svc drc).2).length) := by
  intro n
  induction n with
  | zero =>
    intro cs hlen vs es svc drc _ _ _ _
    have hcs : cs = [] := List.length_eq_zero.1 (Nat.le_zero.1 hlen)
    subst hcs
    rw [flushLoop_nil]
    refine ⟨by simp [uploadsOf], by simp [uploadsOf], by simp, ?_⟩
    intro hover
    simp only [List.map_nil, List.sum_nil] at hover
    omega
  | succ n ih =>
    intro cs hlen vs es svc drc hdraw hcv hip hci
    by_cases hcs : cs = []
    · subst hcs
      rw [flushLoop_nil]
      refine ⟨by simp [uploadsOf], by simp [uploadsOf], by simp, ?_⟩
      intro hover
      simp only [List.map_nil, List.sum_nil] at hover
      omega
    · have hok : ∀ c ∈ cs, cmdIndicesOK c = true := by
        intro c hc
        cases c with
        | draw dc =>
          have h1 := hci _ hc
          simp only [cmdNumIndices] at h1
          simp [cmdIndicesOK, h1]
        | other i e => rfl
      rcases htc : takeChunk cs 0 0 0 with _ | ⟨nv, ne, nc⟩
      · exact absurd htc (takeChunk_isSome cs 0 0 0 hok)
      obtain ⟨k, hk1, hk2, hk3, hk4⟩ := takeChunk_sums cs 0 0 0 (nv, ne, nc) htc
      have hk2a : nc = k := by simpa using hk2
      have hk3a : nv = ((cs.take nc).map cmdNumVertices).sum := by
        rw [hk2a]
        simpa using hk3
      have hk4a : ne = ((cs.take nc).map cmdNumIndices).sum := by
        rw [hk2a]
        simpa using hk4
      have hnc1 : 1 ≤ nc := takeChunk_pos cs 0 0 (nv, ne, nc) hcs htc
      have hne1 : 1 ≤ ne := by
        have htknil : cs.take nc ≠ [] := by
          simp only [ne_eq, List.take_eq_nil_iff]
          push_neg
          exact ⟨by omega, hcs⟩
        obtain ⟨b, bs, hb⟩ := List.exists_cons_of_ne_nil htknil
        have hbmem : b ∈ cs :=
          List.take_subset nc cs (hb ▸ List.mem_cons_self b bs)
        have hb1 := hip b hbmem
        rw [hb] at hk4a
        simp only [List.map_cons, List.sum_cons] at hk4a
        omega
      have hbounds := takeChunk_le cs 0 0 0 (nv, ne, nc) hcv hci
        (fun _ => ⟨Nat.zero_le _, Nat.zero_le _⟩) (fun _ => ⟨rfl, rfl⟩) htc
      have hbv : nv ≤ IndicesCount * VertexFloatCount := hbounds.1
      have hbe : ne ≤ IndicesCount := hbounds.2
      have hr1 : (execChunk d (cs.take nc) 0 drc).1 = none :=
        execChunk_ok d hdr _ 0 drc
          (fun c hc => hdraw c (List.take_subset _ _ hc))
      rcases hex : execChunk d (cs.take nc) 0 drc with ⟨r1, lg, drc2⟩
      rw [hex] at hr1
      have hr1a : r1 = none := hr1
      subst hr1a
      have hlg : uploadsOf lg = [] := by
        have h0 := execChunk_uploads d (cs.take nc) 0 drc
        rw [hex] at h0
        exact h0
      rw [flushLoop_eq d vs es cs svc drc hcs nv ne nc htc,
        if_pos (show 0 < ne by omega)]
      simp only [hsv, hex]
      have hlen2 : (cs.drop nc).length ≤ n := by
        have hpos := List.length_pos.2 hcs
        simp only [List.length_drop]
        omega
      obtain ⟨ih1, ih2, ih3, ih4⟩ := ih (cs.drop nc) hlen2 (vs.drop nv)
        (es.drop ne) (svc + 1) drc2
        (fun c hc => hdraw c (List.drop_subset _ _ hc))
        (fun c hc => hcv c (List.drop_subset _ _ hc))
        (fun c hc => hip c (List.drop_subset _ _ hc))
        (fun c hc => hci c (List.drop_subset _ _ hc))
      have hsumdec : (cs.map cmdNumIndices).sum =
          ne + ((cs.drop nc).map cmdNumIndices).sum := by
        conv_lhs => rw [← List.take_append_drop nc cs]
        rw [List.map_append, List.sum_append, ← hk4a]
      have hsumdecv : (cs.map cmdNumVertices).sum =
          nv + ((cs.drop nc).map cmdNumVertices).sum := by
        conv_lhs => rw [← List.take_append_drop nc cs]
        rw [List.map_append, List.sum_append, ← hk3a]
      simp only [uploadsOf_setVertices_cons, uploadsOf_append, hlg,
        List.nil_append]
      refine ⟨?_, ?_, ?_, ?_⟩
      · simp only [List.map_cons, List.flatten_cons]
        rw [ih1, hsumdec, List.take_add]
      · intro u hu
        rcases List.mem_cons.1 hu with hu | hu
        · subst hu
          constructor
          · rw [List.length_take]
            exact le_trans (min_le_left _ _) hbv
          · rw [List.length_take]
            exact le_trans (min_le_left _ _) hbe
        · exact ih2 u hu
      · intro _
        simp only [List.length_cons]
        omega
      · intro hover
        have hdropne : cs.drop nc ≠ [] := by
          intro hnil
          have h5 := List.take_append_drop nc cs
          rw [hnil, List.append_nil] at h5
          rw [h5] at hk3a hk4a
          rcases hover with ho | ho <;> omega
        have h1le := ih3 hdropne
        simp only [List.length_cons]
        omega


theorem uploadsOf_flush (q : Queue) (d : DriverSpec) (endFrame : Bool)
    (hne : ¬(q.commands = [] ∧ endFrame = false))
    (hbegin : d.beginErr = none) :
    uploadsOf (flush q d endFrame).log =
      uploadsOf (flushLoop d q.vertices q.indices q.commands 0 0).2 := by
  unfold flush
  rw [if_neg hne]
  simp only [hbegin]
  simp only [uploadsOf, List.filterMap_cons, List.filterMap_append,
    List.filterMap_nil, List.append_nil]

/-- C2: for any batch of draw calls that each fit in one chunk on their own
(at most 65535 × 8 vertex floats, a nonempty index list of original index
values below 2^16), if the accumulated vertex-float count or index count
exceeds the per-chunk capacity (65535 × 8 vertex floats, 65535 indices),
then a flush with an error-free driver issues at least two separate
SetVertices uploads; every upload stays within both capacities; the
uploaded index buffers concatenate, in order, to exactly the rebased index
lists of the calls (each call's indices shifted by its chunk-relative
vertex offset modulo 2^16); and undoing that rebasing per call recovers
every originally submitted index value exactly. -/
theorem flush_chunks_and_rebase
    (filt : Shader → List (List ℚ) → List (List ℚ)) (d : DriverSpec)
    (L : List DrawArgs)
    (hsv : ∀ k, d.setVerticesErr k = none)
    (hdr : ∀ k, d.drawErr k = none)
    (hbegin : d.beginErr = none)
    (hargs : ∀ a ∈ L, a.vertices.length ≤ IndicesCount * VertexFloatCount ∧
      1 ≤ a.indices.length ∧ ∀ ix ∈ a.indices, ix < 65536)
    (hsome : (enqueueAll filt emptyQueue L).isSome = true)
    (hover : IndicesCount * VertexFloatCount < sumVFloats L ∨
      IndicesCount < sumInds L) :
    2 ≤ (uploadsOf (flush ((enqueueAll filt emptyQueue L).getD emptyQueue)
        d false).log).length ∧
    (∀ u ∈ uploadsOf (flush ((enqueueAll filt emptyQueue L).getD emptyQueue)
        d false).log,
      u.1.length ≤ IndicesCount * VertexFloatCount ∧
      u.2.length ≤ IndicesCount) ∧
    ((uploadsOf (flush ((enqueueAll filt emptyQueue L).getD emptyQueue)
        d false).log).map Prod.snd).flatten =
      ((L.zip (specOffsets 0 0 L)).map fun p =>
        p.1.indices.map fun ix => (ix + p.2) % 65536).flatten ∧
    ∀ p ∈ L.zip (specOffsets 0 0 L),
      (p.1.indices.map fun ix => (ix + p.2) % 65536).map
        (fun v => (v + (65536 - p.2 % 65536)) % 65536) = p.1.indices := by
  rcases hqe : enqueueAll filt emptyQueue L with _ | q
  · rw [hqe] at hsome
    cases hsome
  · simp only [Option.getD_some]
    obtain ⟨hinv, hvlen, hind⟩ := enqueueAll_spec filt L emptyQueue q
      (fun a ha => ⟨(hargs a ha).1, (hargs a ha).2.1⟩) qinv_empty hqe
    have hvlen2 : q.vertices.length = sumVFloats L := by
      simpa [emptyQueue] using hvlen
    have hind2 : q.indices = (rebasedFrom 0 0 L).flatten := by
      simpa [emptyQueue] using hind
    have hindlen : q.indices.length = sumInds L := by
      rw [hind2, rebasedFrom_flatten_length]
    have htotv : (q.commands.map cmdNumVertices).sum = sumVFloats L := by
      rw [hinv.sumNv, hvlen2]
    have htote : (q.commands.map cmdNumIndices).sum = sumInds L := by
      rw [hinv.sumNe, hindlen]
    have hcne : q.commands ≠ [] := by
      intro hnil
      rw [hnil] at htotv htote
      simp only [List.map_nil, List.sum_nil] at htotv htote
      rcases hover with ho | ho <;> omega
    have hup : uploadsOf (flush q d false).log =
        uploadsOf (flushLoop d q.vertices q.indices q.commands 0 0).2 :=
      uploadsOf_flush q d false (by simp [hcne]) hbegin
    obtain ⟨hu1, hu2, hu3, hu4⟩ := flushLoop_uploads d hsv hdr
      q.commands.length q.commands le_rfl q.vertices q.indices 0 0
      hinv.allDraw hinv.cmdV hinv.cmdIpos hinv.cmdI
    rw [hup]
    refine ⟨?_, ?_, ?_, ?_⟩
    · apply hu4
      rw [htotv, htote]
      exact hover
    · exact hu2
    · rw [hu1, htote, ← hindlen, List.take_length, hind2, rebasedFrom_eq_zip]
    · intro p hp
      have hmem := List.of_mem_zip hp
      exact rebase_undo_map p.1.indices p.2 ((hargs p.1 hmem.1).2.2)


/-- A minimal draw call with the given vertex floats and indices. -/
def c2argsOf (vs : List ℚ) (inds : List ℕ) : DrawArgs :=
  { dst := ⟨0, 1, 1, false⟩, srcs := ⟨none, none, none, none⟩,
    offsets := [(0, 0), (0, 0), (0, 0)], vertices := vs, indices := inds,
    blend := ⟨0, 0, 0, 0, 0, 0⟩, dstRegion := ⟨0, 0, 1, 1⟩,
    srcRegion := ⟨0, 0, 1, 1⟩, shader := ⟨0⟩, uniforms := [],
    evenOdd := false }

/-- One call large enough that its vertex floats alone exceed the per-chunk
capacity of 65535 × 8 = 524280 floats, while its index count (3) passes the
only capacity check the enqueue path performs. -/
def c2big : DrawArgs := c2argsOf (List.replicate 524288 0) [0, 0, 0]

def c2bigL : List DrawArgs := [c2big]

/-- The command the oversized call turns into. -/
def c2dc : DrawTrianglesCommand :=
  { dst := c2big.dst, srcs := c2big.srcs,
    vertices := (enqueueVertices emptyQueue c2big).drop
      ((enqueueVertices emptyQueue c2big).length - c2big.vertices.length),
    nindices := c2big.indices.length, blend := c2big.blend,
    dstRegion := c2big.dstRegion, shader := c2big.shader,
    uniforms := enqueueUniforms filtId emptyQueue c2big,
    evenOdd := c2big.evenOdd }

theorem flushLoop_single (vs : List ℚ) (es : List ℕ)
    (dc : DrawTrianglesCommand) (h1 : 1 ≤ dc.nindices)
    (hle : dc.nindices ≤ IndicesCount) :
    (flushLoop dOk vs es [Command.draw dc] 0 0).2 =
      [DriverCall.setVertices (vs.take dc.vertices.length)
        (es.take dc.nindices) none,
       DriverCall.drawTriangles dc.nindices 0 none] := by
  have htc : takeChunk [Command.draw dc] 0 0 0 =
      some (dc.vertices.length, dc.nindices, 1) := by
    simp only [takeChunk]
    rw [if_neg (Nat.not_lt.2 hle), if_neg (by simp)]
    simp [takeChunk]
  have hex : execChunk dOk ([Command.draw dc].take 1) 0 0 =
      (none, [DriverCall.drawTriangles dc.nindices 0 none], 1) := by
    have ht1 : ([Command.draw dc].take 1) = [Command.draw dc] := rfl
    rw [ht1]
    simp only [execChunk, drawTrianglesExec, dOk]
    rw [if_neg (by omega)]
    rfl
  have hd1 : ([Command.draw dc].drop 1) = [] := rfl
  have hsv0 : dOk.setVerticesErr 0 = none := rfl
  rw [flushLoop_eq dOk vs es _ 0 0 (by simp) _ _ _ htc,
    if_pos (show 0 < dc.nindices by omega)]
  simp only [hsv0, hex, hd1, flushLoop_nil, List.append_nil]

theorem c2_enqueue_eq : EnqueueDrawTrianglesCommand filtId emptyQueue c2big =
    some (enqueueNewQueue filtId emptyQueue c2big) := by
  unfold EnqueueDrawTrianglesCommand
  rw [if_neg (by decide)]
  rfl

theorem enqueue_isSome (filt : Shader → List (List ℚ) → List (List ℚ))
    (q : Queue) (a : DrawArgs) (hle : a.indices.length ≤ IndicesCount) :
    ∃ q2, EnqueueDrawTrianglesCommand filt q a = some q2 := by
  unfold EnqueueDrawTrianglesCommand
  rw [if_neg (Nat.not_lt.2 hle)]
  split
  · split
    · exact ⟨_, rfl⟩
    · exact ⟨_, rfl⟩
  · exact ⟨_, rfl⟩

theorem enqueueAll_isSome (filt : Shader → List (List ℚ) → List (List ℚ)) :
    ∀ (L : List DrawArgs) (q : Queue),
    (∀ a ∈ L, a.indices.length ≤ IndicesCount) →
    (enqueueAll filt q L).isSome = true := by
  intro L
  induction L with
  | nil => intro q _; rfl
  | cons a rest ih =>
    intro q hL
    obtain ⟨q2, h2⟩ := enqueue_isSome filt q a (hL a (List.mem_cons_self _ _))
    simp only [enqueueAll, h2]
    exact ih q2 fun b hb => hL b (List.mem_cons_of_mem _ hb)

/-- Two calls whose index totals (65535 + 1) overflow one chunk. -/
def c2okL : List DrawArgs :=
  [c2argsOf [] (List.replicate 65535 0), c2argsOf [] [0]]

theorem flush_chunks_and_rebase_witness :
    2 ≤ (uploadsOf (flush ((enqueueAll filtId emptyQueue c2okL).getD
        emptyQueue) dOk false).log).length ∧
    (∀ u ∈ uploadsOf (flush ((enqueueAll filtId emptyQueue c2okL).getD
        emptyQueue) dOk false).log,
      u.1.length ≤ IndicesCount * VertexFloatCount ∧
      u.2.length ≤ IndicesCount) ∧
    ((uploadsOf (flush ((enqueueAll filtId emptyQueue c2okL).getD emptyQueue)
        dOk false).log).map Prod.snd).flatten =
      ((c2okL.zip (specOffsets 0 0 c2okL)).map fun p =>
        p.1.indices.map fun ix => (ix + p.2) % 65536).flatten ∧
    ∀ p ∈ c2okL.zip (specOffsets 0 0 c2okL),
      (p.1.indices.map fun ix => (ix + p.2) % 65536).map
        (fun v => (v + (65536 - p.2 % 65536)) % 65536) = p.1.indices :=
  flush_chunks_and_rebase filtId dOk c2okL (fun _ => rfl) (fun _ => rfl) rfl
    (by
      intro a ha
      simp only [c2okL, List.mem_cons, List.not_mem_nil, or_false] at ha
      rcases ha with ha | ha <;> subst ha
      · refine ⟨Nat.zero_le _, ?_, ?_⟩
        · show 1 ≤ (List.replicate 65535 (0 : ℕ)).length
          rw [List.length_replicate]
          omega
        · intro ix hx
          have hx2 : ix ∈ List.replicate 65535 (0 : ℕ) := hx
          rw [List.mem_replicate] at hx2
          omega
      · refine ⟨Nat.zero_le _, ?_, ?_⟩
        · show 1 ≤ ([0] : List ℕ).length
          simp
        · intro ix hx
          have hx2 : ix ∈ ([0] : List ℕ) := hx
          rw [List.mem_singleton] at hx2
          omega)
    (enqueueAll_isSome filtId c2okL emptyQueue (by
      intro a ha
      simp only [c2okL, List.mem_cons, List.not_mem_nil, or_false] at ha
      rcases ha with ha | ha <;> subst ha
      · show (List.replicate 65535 (0 : ℕ)).length ≤ IndicesCount
        rw [List.length_replicate]
        decide
      · show ([0] : List ℕ).length ≤ IndicesCount
        decide))
    (by
      right
      show IndicesCount <
        ([(List.replicate 65535 (0 : ℕ)).length, ([0] : List ℕ).length] :
          List ℕ).sum
      rw [List.length_replicate]
      decide)


theorem c2_cap_eq : IndicesCount * VertexFloatCount = 524280 := by decide

theorem c2_hq : (enqueueAll filtId emptyQueue c2bigL).getD emptyQueue =
    enqueueNewQueue filtId emptyQueue c2big := by
  show (enqueueAll filtId emptyQueue [c2big]).getD emptyQueue = _
  simp only [enqueueAll, c2_enqueue_eq, Option.getD_some]

theorem c2_hcm : (enqueueNewQueue filtId emptyQueue c2big).commands =
    [Command.draw c2dc] := rfl

theorem c2_hdclen : c2dc.vertices.length = 524288 := by
  unfold c2dc
  dsimp only
  unfold enqueueVertices emptyQueue c2big c2argsOf
  dsimp only
  rw [List.nil_append, List.length_drop, List.length_replicate]

theorem c2_hqv : (enqueueNewQueue filtId emptyQueue c2big).vertices.length =
    524288 := by
  unfold enqueueNewQueue
  dsimp only
  unfold enqueueVertices emptyQueue c2big c2argsOf
  dsimp only
  rw [List.nil_append, List.length_replicate]


theorem c2_uploads :
    uploadsOf (flush (enqueueNewQueue filtId emptyQueue c2big) dOk false).log =
    [((enqueueNewQueue filtId emptyQueue c2big).vertices.take
        c2dc.vertices.length,
      (enqueueNewQueue filtId emptyQueue c2big).indices.take c2dc.nindices)]
    := by
  have h3 : c2dc.nindices = 3 := rfl
  have hlp := flushLoop_single
    (enqueueNewQueue filtId emptyQueue c2big).vertices
    (enqueueNewQueue filtId emptyQueue c2big).indices c2dc
    (by rw [h3]; omega) (by rw [h3]; decide)
  have hb : dOk.beginErr = none := rfl
  unfold flush
  rw [if_neg (by simp [c2_hcm])]
  simp only [hb, c2_hcm, hlp]
  simp [uploadsOf]

/-- C2 counterexample: a single call whose 524288 vertex floats exceed the
per-chunk capacity (65535 × 8 = 524280) is accepted by the enqueue path —
only the index count is capacity-checked — and the whole batch then flushes
as exactly ONE SetVertices upload whose vertex-float count exceeds the
chunk capacity: neither the "at least two uploads" nor the "each chunk
within capacity" part of the claim holds for this sequence. -/
theorem flush_single_oversized_upload :
    IndicesCount * VertexFloatCount < sumVFloats c2bigL ∧
    (uploadsOf (flush ((enqueueAll filtId emptyQueue c2bigL).getD emptyQueue)
        dOk false).log).length = 1 ∧
    ∃ u ∈ uploadsOf (flush ((enqueueAll filtId emptyQueue c2bigL).getD
        emptyQueue) dOk false).log,
      IndicesCount * VertexFloatCount < u.1.length := by
  rw [c2_hq]
  refine ⟨?_, ?_, ?_⟩
  · rw [c2_cap_eq]
    unfold sumVFloats c2bigL c2big c2argsOf
    simp only [List.map_cons, List.map_nil, List.sum_cons, List.sum_nil,
      List.length_replicate]
    omega
  · rw [c2_uploads]
    rfl
  · rw [c2_uploads]
    refine ⟨_, List.mem_singleton_self _, ?_⟩
    rw [c2_cap_eq, List.length_take, c2_hdclen, c2_hqv]
    omega

end GraphicsCommand
